import Mathlib

/-!
# Verification of the infinite-storage-glitch data-plane pipeline

A shallow embedding, in Lean 4, of the core data-plane code of the
`lessuseless-systems/infinite-storage-glitch` repository, together with
theorems settling the specification claims about it.

Conventions of the embedding:
* Rust `u8` bytes are `Nat` values; theorems that depend on byte range carry
  explicit `< 256` hypotheses.  `usize`/`u32`/`u64` arithmetic is `Nat`, with
  an explicit `% 2 ^ 32` (resp. `% 2 ^ 64`) exactly where the source performs
  an `as` cast that can wrap.
* Fallible Rust functions (`Result<T>`) become `Except Error T`.
* SHA-256 (the `sha2` crate) is an external primitive; definitions take the
  hash function as an explicit parameter `sha : List Nat → List Nat`.
* Other external crates (`image`'s PNG codec, `reed_solomon_erasure`,
  `aes_gcm`, `argon2`) are modelled by parameter structures that bundle the
  operations with their documented contracts.
-/

namespace ISG

/-- A byte string: list of byte values (each `< 256` in well-formed data). -/
abbrev Bytes := List Nat

/-- A fingerprint value, `Hash` in `isg-core/src/hash.rs` ([u8; 32]). -/
abbrev HashV := List Nat

/-- The `isg_core::Error` enum (`isg-core/src/error.rs`), restricted to the
variants this development needs.  The `Erasure` variant is the one the
`isg-erasure` crate constructs.  Payloads are the formatted message strings. -/
inductive Error where
  | Encoding (msg : String)
  | Decoding (msg : String)
  | Storage (msg : String)
  | BlockNotFound (msg : String)
  | FileNotFound (msg : String)
  | InvalidHash (msg : String)
  | Database (msg : String)
  | Crypto (msg : String)
  | Erasure (msg : String)
  | Other (msg : String)
  deriving DecidableEq, Repr

/-- Rust's `slice::chunks(n)`: consecutive chunks of length `n`, the last one
possibly shorter.  (`chunks(0)` panics in Rust; here the `n = 0` case returns
`[]` and is never reached by the embedded code.) -/
def chunksOf (n : Nat) (l : List α) : List (List α) :=
  match l with
  | [] => []
  | x :: xs =>
    if n = 0 then []
    else ((x :: xs).take n) :: chunksOf n ((x :: xs).drop n)
  termination_by l.length
  decreasing_by
    simp only [List.length_drop, List.length_cons]
    omega

@[simp] theorem chunksOf_nil (n : Nat) : chunksOf n ([] : List α) = [] := by
  rw [chunksOf]

theorem chunksOf_eq_cons (n : Nat) (hn : n ≠ 0) (l : List α) (hl : l ≠ []) :
    chunksOf n l = (l.take n) :: chunksOf n (l.drop n) := by
  cases l with
  | nil => exact absurd rfl hl
  | cons x xs =>
    rw [chunksOf]
    simp [hn]

/-- A single chunk when the list fits in one. -/
theorem chunksOf_of_length_le (n : Nat) (hn : n ≠ 0) (l : List α)
    (hl : l ≠ []) (h : l.length ≤ n) : chunksOf n l = [l] := by
  rw [chunksOf_eq_cons n hn l hl]
  have h1 : l.take n = l := List.take_of_length_le h
  have h2 : l.drop n = [] := List.drop_eq_nil_of_le h
  rw [h1, h2, chunksOf_nil]

/-! ## Hex rendering (`isg-core/src/hash.rs`, backed by the `hex` crate)

The `hex` crate encodes each byte as two lowercase hex digits, high nibble
first, and decodes strings of hex-digit pairs (accepting both cases),
rejecting odd lengths and non-hex characters. -/

/-- The sixteen lowercase hex digits, in order. -/
def lowerHexDigits : List Char := "0123456789abcdef".data

/-- The lowercase hex digit for a nibble value. -/
def hexDigitChar (n : Nat) : Char := lowerHexDigits.getD n '0'

/-- `hex::encode` on a byte string: two lowercase digits per byte. -/
def hexEncodeChars (bytes : Bytes) : List Char :=
  bytes.flatMap fun b => [hexDigitChar (b / 16), hexDigitChar (b % 16)]

/-- `Hash::to_hex`. -/
def hashToHex (h : HashV) : String := String.mk (hexEncodeChars h)

/-- Value of one hex digit character (both cases accepted, as in `hex`). -/
def hexVal (c : Char) : Option Nat :=
  if '0' ≤ c ∧ c ≤ '9' then some (c.toNat - '0'.toNat)
  else if 'a' ≤ c ∧ c ≤ 'f' then some (c.toNat - 'a'.toNat + 10)
  else if 'A' ≤ c ∧ c ≤ 'F' then some (c.toNat - 'A'.toNat + 10)
  else none

/-- `hex::decode`: pairs of hex digits to bytes; `none` on odd length or on
any non-hex character. -/
def hexDecode : List Char → Option Bytes
  | [] => some []
  | [_] => none
  | c1 :: c2 :: rest => do
    let v1 ← hexVal c1
    let v2 ← hexVal c2
    let tail ← hexDecode rest
    pure ((v1 * 16 + v2) :: tail)

/-- `Hash::from_hex`: hex-decode, then insist on exactly 32 bytes.  The
message of the first error stands for the `hex` crate's rendered error. -/
def hashFromHex (s : String) : Except Error HashV :=
  match hexDecode s.data with
  | none => .error (.InvalidHash "Invalid hex")
  | some bytes =>
    if bytes.length ≠ 32 then
      .error (.InvalidHash ("Expected 32 bytes, got " ++ toString bytes.length))
    else
      .ok bytes

theorem hexVal_hexDigitChar : ∀ n < 16, hexVal (hexDigitChar n) = some n := by
  decide

/-- Hex-encoding then hex-decoding byte values below 256 is the identity. -/
theorem hexDecode_hexEncode (bs : Bytes) (hb : ∀ b ∈ bs, b < 256) :
    hexDecode (hexEncodeChars bs) = some bs := by
  induction bs with
  | nil => simp [hexEncodeChars, hexDecode]
  | cons b rest ih =>
    have hb' : b < 256 := hb b (by simp)
    have hhi : hexVal (hexDigitChar (b / 16)) = some (b / 16) :=
      hexVal_hexDigitChar (b / 16) (by omega)
    have hlo : hexVal (hexDigitChar (b % 16)) = some (b % 16) :=
      hexVal_hexDigitChar (b % 16) (by omega)
    have hrest : hexDecode (hexEncodeChars rest) = some rest :=
      ih fun x hx => hb x (by simp [hx])
    simp only [hexEncodeChars, List.flatMap_cons, List.cons_append, List.nil_append]
    rw [show (hexEncodeChars rest = rest.flatMap fun b =>
      [hexDigitChar (b / 16), hexDigitChar (b % 16)]) from rfl] at hrest
    simp [hexDecode, hhi, hlo, hrest]
    omega

/-- `hexDecode` succeeds exactly on even-length all-hex character lists. -/
theorem hexDecode_isSome_iff (cs : List Char) :
    (hexDecode cs).isSome ↔
      (cs.length % 2 = 0 ∧ ∀ c ∈ cs, (hexVal c).isSome) := by
  have main : ∀ m (cs : List Char), cs.length ≤ m →
      ((hexDecode cs).isSome ↔
        (cs.length % 2 = 0 ∧ ∀ c ∈ cs, (hexVal c).isSome)) := by
    intro m
    induction m with
    | zero =>
      intro cs hcs
      have : cs = [] := List.length_eq_zero.mp (Nat.le_zero.mp hcs)
      subst this
      simp [hexDecode]
    | succ m ih =>
      intro cs hcs
      match cs with
      | [] => simp [hexDecode]
      | [c] => simp [hexDecode]
      | c1 :: c2 :: rest =>
        have hrest := ih rest (by simp at hcs; omega)
        have hstep : hexDecode (c1 :: c2 :: rest) =
            (hexVal c1).bind fun v1 => (hexVal c2).bind fun v2 =>
              (hexDecode rest).bind fun tail =>
                some ((v1 * 16 + v2) :: tail) := rfl
        cases hv1 : hexVal c1 with
        | none =>
          rw [hstep, hv1]
          simp only [Option.none_bind, Option.isSome_none, Bool.false_eq_true,
            false_iff]
          intro habs
          have := habs.2 c1 (by simp)
          rw [hv1] at this
          simp at this
        | some v1 =>
          cases hv2 : hexVal c2 with
          | none =>
            rw [hstep, hv1, hv2]
            simp only [Option.some_bind, Option.none_bind, Option.isSome_none,
              Bool.false_eq_true, false_iff]
            intro habs
            have := habs.2 c2 (by simp)
            rw [hv2] at this
            simp at this
          | some v2 =>
            cases hr : hexDecode rest with
            | none =>
              rw [hstep, hv1, hv2, hr]
              simp only [Option.some_bind, Option.none_bind, Option.isSome_none,
                Bool.false_eq_true, false_iff]
              rw [hr] at hrest
              simp only [Option.isSome_none, Bool.false_eq_true, false_iff] at hrest
              intro habs
              apply hrest
              refine ⟨?_, ?_⟩
              · have := habs.1
                simp only [List.length_cons] at this ⊢
                omega
              · intro c hc
                exact habs.2 c (by simp [hc])
            | some bs =>
              rw [hstep, hv1, hv2, hr]
              simp only [Option.some_bind, Option.isSome_some, true_iff]
              rw [hr] at hrest
              simp only [Option.isSome_some, true_iff] at hrest
              refine ⟨?_, ?_⟩
              · have h0 := hrest.1
                simp only [List.length_cons]
                omega
              · intro c hc
                rcases List.mem_cons.mp hc with h | hc2
                · subst h; simp [hv1]
                rcases List.mem_cons.mp hc2 with h | h
                · subst h; simp [hv2]
                · exact hrest.2 c h
  exact main cs.length cs le_rfl

/-- A decoded byte string has half the length of its hex rendering. -/
theorem hexDecode_length (cs : List Char) (bs : Bytes)
    (h : hexDecode cs = some bs) : 2 * bs.length = cs.length := by
  have main : ∀ m (cs : List Char) (bs : Bytes), cs.length ≤ m →
      hexDecode cs = some bs → 2 * bs.length = cs.length := by
    intro m
    induction m with
    | zero =>
      intro cs bs hle h
      have : cs = [] := List.length_eq_zero.mp (Nat.le_zero.mp hle)
      subst this
      simp [hexDecode] at h
      subst h
      simp
    | succ m ih =>
      intro cs bs hle h
      match cs with
      | [] =>
        simp [hexDecode] at h
        subst h
        simp
      | [c] => simp [hexDecode] at h
      | c1 :: c2 :: rest =>
        have hstep : hexDecode (c1 :: c2 :: rest) =
            (hexVal c1).bind fun v1 => (hexVal c2).bind fun v2 =>
              (hexDecode rest).bind fun tail =>
                some ((v1 * 16 + v2) :: tail) := rfl
        rw [hstep] at h
        cases hv1 : hexVal c1 <;> rw [hv1] at h
        · simp at h
        cases hv2 : hexVal c2 <;> rw [hv2] at h
        · simp at h
        cases hr : hexDecode rest with
        | none => rw [hr] at h; simp at h
        | some tail =>
          rw [hr] at h
          simp only [Option.some_bind, Option.some.injEq] at h
          subst h
          have := ih rest tail (by simp at hle; omega) hr
          simp only [List.length_cons]
          omega
  exact main cs.length cs bs le_rfl h

/-! ## Merkle manifest (`isg-core/src/file.rs`, `File::compute_merkle_root`)

SHA-256 itself is external to the repository, so every definition takes the
hash function as a parameter `sha`. -/

/-- The body of the `for chunk in current_level.chunks(2)` loop: a length-2
chunk hashes the concatenation, the odd trailing singleton is hashed with
itself. -/
def merkleCombine (sha : Bytes → HashV) (chunk : List HashV) : HashV :=
  if chunk.length = 2 then sha (chunk.getD 0 [] ++ chunk.getD 1 [])
  else sha (chunk.getD 0 [] ++ chunk.getD 0 [])

/-- One iteration of the level-reduction `while` loop. -/
def merkleLevelStep (sha : Bytes → HashV) (level : List HashV) : List HashV :=
  (chunksOf 2 level).map (merkleCombine sha)

/-- Number of two-chunks of a list. -/
theorem chunksTwo_length (l : List α) :
    (chunksOf 2 l).length = (l.length + 1) / 2 := by
  have main : ∀ m (l : List α), l.length ≤ m →
      (chunksOf 2 l).length = (l.length + 1) / 2 := by
    intro m
    induction m with
    | zero =>
      intro l hl
      have : l = [] := List.length_eq_zero.mp (Nat.le_zero.mp hl)
      subst this
      simp
    | succ m ih =>
      intro l hl
      by_cases hnil : l = []
      · subst hnil; simp
      · rw [chunksOf_eq_cons 2 (by omega) l hnil]
        have hpos : 0 < l.length := List.length_pos.mpr hnil
        have hdrop : (l.drop 2).length = l.length - 2 := List.length_drop 2 l
        have := ih (l.drop 2) (by omega)
        simp only [List.length_cons, this, hdrop]
        omega
  exact main l.length l le_rfl

theorem merkleLevelStep_length (sha : Bytes → HashV) (l : List HashV) :
    (merkleLevelStep sha l).length = (l.length + 1) / 2 := by
  simp [merkleLevelStep, chunksTwo_length]

/-- The `while current_level.len() > 1` loop of `compute_merkle_root`. -/
def merkleLoop (sha : Bytes → HashV) (level : List HashV) : List HashV :=
  if level.length ≤ 1 then level
  else merkleLoop sha (merkleLevelStep sha level)
  termination_by level.length
  decreasing_by
    rw [merkleLevelStep_length]
    omega

theorem merkleLoop_unfold (sha : Bytes → HashV) (level : List HashV) :
    merkleLoop sha level =
      if level.length ≤ 1 then level
      else merkleLoop sha (merkleLevelStep sha level) := by
  rw [merkleLoop]

/-- `File::compute_merkle_root`.  `headD []` models the final
`current_level[0]` indexing (the loop never returns an empty level). -/
def computeMerkleRoot (sha : Bytes → HashV) (hashes : List HashV) : HashV :=
  if hashes.length = 0 then sha []
  else if hashes.length = 1 then hashes.headD []
  else (merkleLoop sha hashes).headD []

/-! ### The spec's reference Merkle definition (for claim C4)

Modelled from the spec: "pair consecutive hashes left-to-right, hashing the
concatenation `h_i ‖ h_{i+1}`; a final unpaired element is hashed against
itself; repeat until one value remains". -/

/-- One pairing pass of the spec's reference definition. -/
def specPairUp (sha : Bytes → HashV) : List HashV → List HashV
  | [] => []
  | [h] => [sha (h ++ h)]
  | h1 :: h2 :: rest => sha (h1 ++ h2) :: specPairUp sha rest

theorem specPairUp_length (sha : Bytes → HashV) (l : List HashV) :
    (specPairUp sha l).length = (l.length + 1) / 2 := by
  have main : ∀ m (l : List HashV), l.length ≤ m →
      (specPairUp sha l).length = (l.length + 1) / 2 := by
    intro m
    induction m with
    | zero =>
      intro l hl
      have : l = [] := List.length_eq_zero.mp (Nat.le_zero.mp hl)
      subst this
      simp [specPairUp]
    | succ m ih =>
      intro l hl
      match l with
      | [] => simp [specPairUp]
      | [h] => simp [specPairUp]
      | h1 :: h2 :: rest =>
        have := ih rest (by simp at hl; omega)
        simp only [specPairUp, List.length_cons, this]
        omega
  exact main l.length l le_rfl

/-- The spec reference's "repeat until one value remains". -/
def specMerkleLoop (sha : Bytes → HashV) (level : List HashV) : List HashV :=
  if level.length ≤ 1 then level
  else specMerkleLoop sha (specPairUp sha level)
  termination_by level.length
  decreasing_by
    rw [specPairUp_length]
    omega

theorem specMerkleLoop_unfold (sha : Bytes → HashV) (level : List HashV) :
    specMerkleLoop sha level =
      if level.length ≤ 1 then level
      else specMerkleLoop sha (specPairUp sha level) := by
  rw [specMerkleLoop]

/-- The spec's reference Merkle function (§3 of the spec). -/
def specMerkle (sha : Bytes → HashV) (hashes : List HashV) : HashV :=
  match hashes with
  | [] => sha []
  | [h] => h
  | h1 :: h2 :: rest => (specMerkleLoop sha (h1 :: h2 :: rest)).headD []

/-- The two pairing passes agree. -/
theorem merkleLevelStep_eq_specPairUp (sha : Bytes → HashV) (l : List HashV) :
    merkleLevelStep sha l = specPairUp sha l := by
  have main : ∀ m (l : List HashV), l.length ≤ m →
      merkleLevelStep sha l = specPairUp sha l := by
    intro m
    induction m with
    | zero =>
      intro l hl
      have : l = [] := List.length_eq_zero.mp (Nat.le_zero.mp hl)
      subst this
      simp [merkleLevelStep, specPairUp]
    | succ m ih =>
      intro l hl
      match l with
      | [] => simp [merkleLevelStep, specPairUp]
      | [h] =>
        simp [merkleLevelStep, specPairUp, chunksOf_eq_cons 2 (by omega),
          merkleCombine]
      | h1 :: h2 :: rest =>
        have hrest := ih rest (by simp at hl; omega)
        rw [merkleLevelStep, chunksOf_eq_cons 2 (by omega) _ (by simp)]
        simp only [List.take, List.drop, List.map_cons, specPairUp]
        have hcomb : merkleCombine sha [h1, h2] = sha (h1 ++ h2) := by
          simp [merkleCombine]
        rw [hcomb,
          show List.map (merkleCombine sha) (chunksOf 2 rest) =
            merkleLevelStep sha rest from rfl, hrest]
  exact main l.length l le_rfl

theorem merkleLoop_eq_specMerkleLoop (sha : Bytes → HashV) (l : List HashV) :
    merkleLoop sha l = specMerkleLoop sha l := by
  have main : ∀ m (l : List HashV), l.length ≤ m →
      merkleLoop sha l = specMerkleLoop sha l := by
    intro m
    induction m with
    | zero =>
      intro l hl
      have : l = [] := List.length_eq_zero.mp (Nat.le_zero.mp hl)
      subst this
      rw [merkleLoop_unfold, specMerkleLoop_unfold]
      simp
    | succ m ih =>
      intro l hl
      rw [merkleLoop_unfold, specMerkleLoop_unfold, merkleLevelStep_eq_specPairUp]
      by_cases hle : l.length ≤ 1
      · simp [hle]
      · simp only [if_neg hle]
        exact ih (specPairUp sha l) (by rw [specPairUp_length]; omega)
  exact main l.length l le_rfl

theorem computeMerkleRoot_eq_specMerkle (sha : Bytes → HashV)
    (hashes : List HashV) : computeMerkleRoot sha hashes = specMerkle sha hashes := by
  match hashes with
  | [] => simp [computeMerkleRoot, specMerkle]
  | [h] => simp [computeMerkleRoot, specMerkle]
  | h1 :: h2 :: rest =>
    rw [computeMerkleRoot, specMerkle, merkleLoop_eq_specMerkleLoop]
    simp

/-! ## Erasure coding (`isg-erasure/src/lib.rs`)

The Galois-field Reed–Solomon arithmetic lives in the external
`reed_solomon_erasure` crate.  `ReedSolomonLib` bundles its two operations
with the crate's documented contract: encoding `n` data shards plus `k`
zeroed parity slots of one common positive length yields `n + k` shards whose
first `n` are the data shards unchanged, and reconstruction from any mask
that keeps at least `n` of those shards returns all of them; encoding errors
when the shards are empty. -/

/-- One erasure shard. -/
abbrev Shard := List Nat

/-- The external Reed–Solomon library with its documented contract. -/
structure ReedSolomonLib (n k : Nat) where
  rsEncode : List Shard → Except String (List Shard)
  rsReconstruct : List (Option Shard) → Except String (List (Option Shard))
  empty_err : ∀ shards : List Shard, shards ≠ [] → (∀ s ∈ shards, s = []) →
    ∃ e, rsEncode shards = .error e
  encode_ok : ∀ (L : Nat), 1 ≤ L → ∀ shards : List Shard,
    shards.length = n + k → (∀ s ∈ shards, s.length = L) →
    ∃ out, rsEncode shards = .ok out ∧ out.length = n + k ∧
      (∀ s ∈ out, s.length = L) ∧ out.take n = shards.take n ∧
      ∀ mask : List (Option Shard), mask.length = n + k →
        (∀ i, i < n + k →
          mask.getD i none = none ∨ mask.getD i none = some (out.getD i [])) →
        n ≤ (mask.filter Option.isSome).length →
        rsReconstruct mask = .ok (out.map some)

/-- One data shard of `ErasureCoder::encode`: the `i`-th `shard_size` slice
of the input, zero-padded at the tail. -/
def ecShardSlice (data : Bytes) (shardSize i : Nat) : Shard :=
  let slice := (data.drop (i * shardSize)).take shardSize
  slice ++ List.replicate (shardSize - slice.length) 0

/-- `ErasureCoder::encode`. -/
def ecEncode (rs : ReedSolomonLib n k) (data : Bytes) : Except Error (List Shard) :=
  let shardSize := (data.length + n - 1) / n
  let dataShards := (List.range n).map (ecShardSlice data shardSize)
  let shards := dataShards ++ List.replicate k (List.replicate shardSize 0)
  match rs.rsEncode shards with
  | .error e => .error (.Erasure ("Failed to encode: " ++ e))
  | .ok out => .ok out

/-- The `erasure-insufficient` message of `ErasureCoder::reconstruct`. -/
def insufficientMsg (available need : Nat) : String :=
  "Not enough shards to reconstruct: have " ++ toString available ++
    ", need " ++ toString need

/-- The `for i in 0..self.data_shards` collection loop of `reconstruct`. -/
def ecCollectData : List (Option Shard) → Except Error Bytes
  | [] => .ok []
  | none :: _ => .error (.Erasure "Reconstruction failed")
  | some s :: rest =>
    match ecCollectData rest with
    | .error e => .error e
    | .ok tail => .ok (s ++ tail)

/-- `ErasureCoder::reconstruct`. -/
def ecReconstruct (rs : ReedSolomonLib n k) (shards : List (Option Shard))
    (originalSize : Nat) : Except Error Bytes :=
  let available := (shards.filter Option.isSome).length
  if available < n then .error (.Erasure (insufficientMsg available n))
  else
    match rs.rsReconstruct shards with
    | .error e => .error (.Erasure ("Failed to reconstruct: " ++ e))
    | .ok out =>
      match ecCollectData (out.take n) with
      | .error e => .error e
      | .ok result => .ok (result.take originalSize)

/-- Shifting a shard slice by one shard is slicing the dropped input. -/
theorem ecShardSlice_succ (data : Bytes) (s i : Nat) :
    ecShardSlice data s (i + 1) = ecShardSlice (data.drop s) s i := by
  have hdrop : (data.drop s).drop (i * s) = data.drop ((i + 1) * s) := by
    rw [List.drop_drop]
    congr 1
    ring
  simp only [ecShardSlice, hdrop]

/-- Concatenating the data shards of `encode` recovers the input followed by
the zero padding. -/
theorem flatten_shardSlices (m s : Nat) (data : Bytes)
    (h : data.length ≤ m * s) :
    ((List.range m).map (ecShardSlice data s)).flatten =
      data ++ List.replicate (m * s - data.length) 0 := by
  induction m generalizing data with
  | zero =>
    have : data = [] := List.length_eq_zero.mp (by omega)
    subst this
    simp
  | succ m ih =>
    simp only [Nat.succ_mul] at h
    rw [List.range_succ_eq_map]
    simp only [List.map_cons, List.map_map, List.flatten_cons]
    have hshift : (List.map (ecShardSlice data s ∘ Nat.succ) (List.range m)) =
        (List.range m).map (ecShardSlice (data.drop s) s) := by
      apply List.map_congr_left
      intro i _
      simp only [Function.comp_apply]
      exact ecShardSlice_succ data s i
    rw [hshift]
    by_cases hc : s ≤ data.length
    · have hlen : (data.drop s).length = data.length - s := List.length_drop s data
      rw [ih (data.drop s) (by omega)]
      have h0 : ecShardSlice data s 0 = data.take s := by
        simp only [ecShardSlice, Nat.zero_mul, List.drop_zero]
        have : (data.take s).length = s := List.length_take_of_le hc
        rw [this]
        simp
      rw [h0, hlen, ← List.append_assoc, List.take_append_drop]
      congr 1
      congr 1
      simp only [Nat.succ_mul]
      omega
    · push_neg at hc
      have hdrop : data.drop s = [] := List.drop_eq_nil_of_le (by omega)
      rw [hdrop, ih [] (by simp)]
      have h0 : ecShardSlice data s 0 =
          data ++ List.replicate (s - data.length) 0 := by
        simp only [ecShardSlice, Nat.zero_mul, List.drop_zero]
        have htake : data.take s = data := List.take_of_length_le (by omega)
        rw [htake]
      rw [h0]
      simp only [List.length_nil, Nat.sub_zero, List.nil_append,
        List.append_assoc, ← List.replicate_add]
      congr 2
      simp only [Nat.succ_mul]
      omega

/-- `ecCollectData` on an all-`some` list concatenates the shards. -/
theorem ecCollectData_map_some (shards : List Shard) :
    ecCollectData (shards.map some) = .ok shards.flatten := by
  induction shards with
  | nil => simp [ecCollectData]
  | cons s rest ih => simp [ecCollectData, ih]

/-- Splitting a list into present/absent option counts. -/
theorem filter_isSome_add_countP_isNone (l : List (Option α)) :
    (l.filter Option.isSome).length + l.countP Option.isNone = l.length := by
  induction l with
  | nil => simp
  | cons x rest ih =>
    cases x <;> simp [List.countP_cons, ih] <;> omega

/-- Ceiling division covers the input: `len ≤ n * ((len + n - 1) / n)`. -/
theorem le_mul_ceilDiv (len n : Nat) (hn : 1 ≤ n) :
    len ≤ n * ((len + n - 1) / n) := by
  have hmod : (len + n - 1) % n < n := Nat.mod_lt _ (by omega)
  have hdm : n * ((len + n - 1) / n) + (len + n - 1) % n = len + n - 1 :=
    Nat.div_add_mod (len + n - 1) n
  omega

/-- Core of claim C3: blanking `K` of the `N+K` shards reconstructs the
input exactly; blanking `K+1` fails with the insufficient-shards error. -/
theorem ecEncode_then_reconstruct (n k : Nat) (rs : ReedSolomonLib n k)
    (data : Bytes) (hn : 1 ≤ n) (shards : List Shard)
    (henc : ecEncode rs data = .ok shards)
    (mask : List (Option Shard))
    (hlen : mask.length = n + k)
    (hmask : ∀ i, i < n + k →
      mask.getD i none = none ∨ mask.getD i none = some (shards.getD i [])) :
    (mask.countP Option.isNone = k →
      ecReconstruct rs mask data.length = .ok data)
    ∧ (mask.countP Option.isNone = k + 1 →
      ecReconstruct rs mask data.length =
        .error (.Erasure (insufficientMsg (n - 1) n))) := by
  set s := (data.length + n - 1) / n with hs
  set dataShards := (List.range n).map (ecShardSlice data s) with hds
  set input := dataShards ++ List.replicate k (List.replicate s 0) with hinput
  have hencode : rs.rsEncode input = .ok shards := by
    rw [ecEncode] at henc
    simp only [← hs, ← hds, ← hinput] at henc
    cases hres : rs.rsEncode input <;> rw [hres] at henc
    · simp at henc
    · simpa using henc
  have hdsl : dataShards.length = n := by simp [hds]
  have hinl : input.length = n + k := by simp [hinput, hds]
  have hslice_len : ∀ i, (ecShardSlice data s i).length = s := by
    intro i
    have hle : ((data.drop (i * s)).take s).length ≤ s := by
      rw [List.length_take]
      omega
    simp only [ecShardSlice, List.length_append, List.length_replicate]
    omega
  have hmem_len : ∀ sh ∈ input, sh.length = s := by
    intro sh hsh
    rw [hinput] at hsh
    rcases List.mem_append.mp hsh with hsh | hsh
    · obtain ⟨i, _, rfl⟩ := List.mem_map.mp hsh
      exact hslice_len i
    · rw [List.eq_of_mem_replicate hsh]
      simp
  have hspos : 1 ≤ s := by
    by_contra h0
    push_neg at h0
    have hs0 : s = 0 := Nat.lt_one_iff.mp h0
    have hne : input ≠ [] := by
      intro habs
      have h00 : input.length = 0 := by rw [habs]; rfl
      omega
    obtain ⟨e, he⟩ := rs.empty_err input hne (by
      intro sh hsh
      have := hmem_len sh hsh
      rw [hs0] at this
      exact List.length_eq_zero.mp this)
    rw [he] at hencode
    simp at hencode
  obtain ⟨out, hout_enc, hout_len, hout_mem, hout_take, hrec⟩ :=
    rs.encode_ok s hspos input hinl hmem_len
  have houte : shards = out := by
    rw [hencode] at hout_enc
    simpa using hout_enc
  subst houte
  have htaken : shards.take n = dataShards := by
    rw [hout_take, hinput, List.take_left' hdsl]
  have hcover : data.length ≤ n * s := le_mul_ceilDiv data.length n hn
  constructor
  · intro hcount
    have hsum := filter_isSome_add_countP_isNone mask
    have hpresent : (mask.filter Option.isSome).length = n := by omega
    have hrecon := hrec mask hlen hmask (by omega)
    rw [ecReconstruct]
    simp only [hpresent, Nat.lt_irrefl, if_false, hrecon]
    rw [← List.map_take, htaken, ecCollectData_map_some,
      flatten_shardSlices n s data hcover]
    show Except.ok ((data ++ List.replicate (n * s - data.length) 0).take
      data.length) = Except.ok data
    rw [List.take_left]
  · intro hcount
    have hsum := filter_isSome_add_countP_isNone mask
    have hpresent : (mask.filter Option.isSome).length = n - 1 := by omega
    rw [ecReconstruct]
    simp only [hpresent]
    rw [if_pos (by omega)]

/-! ### A concrete 1+1 Reed–Solomon instance (replication)

For `n = k = 1` the Reed–Solomon code is plain replication; this executable
instance discharges the library contract and lets the claim theorems be
evaluated on concrete inputs. -/

def repEncode : List Shard → Except String (List Shard)
  | [d, _] => if d.isEmpty then .error "EmptyShard" else .ok [d, d]
  | _ => .error "WrongShardCount"

def repReconstruct : List (Option Shard) → Except String (List (Option Shard))
  | [some d, some e] => .ok [some d, some e]
  | [some d, none] => .ok [some d, some d]
  | [none, some e] => .ok [some e, some e]
  | _ => .error "TooFewShardsPresent"

def repRS : ReedSolomonLib 1 1 where
  rsEncode := repEncode
  rsReconstruct := repReconstruct
  empty_err := by
    intro shards hne hall
    match shards with
    | [] => exact absurd rfl hne
    | [d] => exact ⟨"WrongShardCount", rfl⟩
    | [d, p] =>
      have hd : d = [] := hall d (by simp)
      subst hd
      exact ⟨"EmptyShard", rfl⟩
    | d :: p :: q :: rest => exact ⟨"WrongShardCount", rfl⟩
  encode_ok := by
    intro L hL shards hlen hmem
    obtain ⟨d, p, rfl⟩ : ∃ d p, shards = [d, p] := by
      match shards with
      | [d, p] => exact ⟨d, p, rfl⟩
      | [] => simp at hlen
      | [d] => simp at hlen
      | a :: b :: c :: r => simp at hlen
    have hd : d.length = L := hmem d (by simp)
    have hdne : d.isEmpty = false := by
      cases d with
      | nil => simp at hd; omega
      | cons x xs => rfl
    refine ⟨[d, d], ?_, rfl, ?_, rfl, ?_⟩
    · simp [repEncode, hdne]
    · intro sh hsh
      have : sh = d := by
        rcases List.mem_cons.mp hsh with h | h
        · exact h
        · simpa using h
      rw [this, hd]
    · intro mask hmlen hmask hpres
      obtain ⟨a, b, rfl⟩ : ∃ a b, mask = [a, b] := by
        match mask with
        | [a, b] => exact ⟨a, b, rfl⟩
        | [] => simp at hmlen
        | [a] => simp at hmlen
        | a :: b :: c :: r => simp at hmlen
      have h0 := hmask 0 (by omega)
      have h1 := hmask 1 (by omega)
      simp only [List.getD_cons_zero, List.getD_cons_succ] at h0 h1
      rcases h0 with rfl | rfl <;> rcases h1 with rfl | rfl
      · simp at hpres
      · rfl
      · rfl
      · rfl

/-! ## Pixel codec (`isg-encoders/src/pixel.rs`)

Frames are `image::RgbaImage` buffers: a width, a height, and row-major rows
of RGBA pixels, zero-initialised by `RgbaImage::new`.  The PNG byte codec is
the external `image` crate; `PngCodec` bundles an abstract lossless
serialisation with its roundtrip contract. -/

/-- One RGBA pixel: `(r, g, b, a)`. -/
abbrev Pixel := Nat × Nat × Nat × Nat

/-- An `RgbaImage`: a width, a height, and row-major pixel rows. -/
structure Image where
  width : Nat
  height : Nat
  rows : List (List Pixel)
  deriving DecidableEq, Repr

/-- `RgbaImage::new`: every channel zero-initialised. -/
def newImage (w h : Nat) : Image :=
  ⟨w, h, List.replicate h (List.replicate w (0, 0, 0, 0))⟩

def getPixel (img : Image) (x y : Nat) : Pixel :=
  (img.rows.getD y []).getD x (0, 0, 0, 0)

def putPixel (img : Image) (x y : Nat) (c : Pixel) : Image :=
  ⟨img.width, img.height, img.rows.set y ((img.rows.getD y []).set x c)⟩

/-- The external lossless PNG serialisation with its roundtrip contract. -/
structure PngCodec where
  enc : Image → List Nat
  dec : List Nat → Except String Image
  dec_enc : ∀ img, dec (enc img) = .ok img

/-- `PixelEncoder` configuration. -/
structure PixelEncoder where
  block_size : Nat
  resolution : Nat × Nat
  fps : Nat
  threshold : Nat

/-- `PixelEncoder::new`: defaults 4, 1920×1080, 30 fps, threshold 128. -/
def PixelEncoder.new : PixelEncoder :=
  { block_size := 4, resolution := (1920, 1080), fps := 30, threshold := 128 }

/-- `PixelEncoder::bits_per_frame`. -/
def bitsPerFrame (e : PixelEncoder) : Nat :=
  (e.resolution.1 / e.block_size) * (e.resolution.2 / e.block_size)

/-- `PixelEncoder::get_bit`: MSB-first bit of the input, zero past the end. -/
def getBit (data : Bytes) (bitIndex : Nat) : Bool :=
  let byteIndex := bitIndex / 8
  let bitOffset := 7 - bitIndex % 8
  if data.length ≤ byteIndex then false
  else ((data.getD byteIndex 0) >>> bitOffset) &&& 1 == 1

/-- The body of `fill_block`'s inner loop: paint pixel
`(blockX·bs + dx, blockY·bs + dy)` if it is inside the image. -/
def paintStep (bs blockX blockY dy : Nat) (c : Pixel) (img2 : Image)
    (dx : Nat) : Image :=
  let x := blockX * bs + dx
  let y := blockY * bs + dy
  if x < img2.width ∧ y < img2.height then putPixel img2 x y c
  else img2

/-- The inner `for dx in 0..block_size` loop of `fill_block`. -/
def fillRow (e : PixelEncoder) (img : Image) (blockX blockY dy : Nat)
    (c : Pixel) : Image :=
  (List.range e.block_size).foldl (paintStep e.block_size blockX blockY dy c)
    img

/-- `PixelEncoder::fill_block`: paint a `block_size × block_size` square,
skipping out-of-bounds pixels. -/
def fillBlock (e : PixelEncoder) (img : Image) (blockX blockY : Nat)
    (c : Pixel) : Image :=
  (List.range e.block_size).foldl (fun img1 dy =>
    fillRow e img1 blockX blockY dy c) img

/-- The `1`-bit and `0`-bit macropixel colors of `create_frame`. -/
def colorOf (bit : Bool) : Pixel :=
  if bit then (0, 0, 0, 255) else (255, 255, 255, 255)

/-- The body of `create_frame`'s inner loop: read the next bit, paint the
macropixel, advance `bit_index`. -/
def frameStep (e : PixelEncoder) (data : Bytes) (blockY : Nat)
    (acc2 : Image × Nat) (blockX : Nat) : Image × Nat :=
  (fillBlock e acc2.1 blockX blockY (colorOf (getBit data acc2.2)),
    acc2.2 + 1)

/-- The inner `for block_x in 0..blocks_x` loop of `create_frame`. -/
def frameRow (e : PixelEncoder) (data : Bytes) (acc : Image × Nat)
    (blockY : Nat) : Image × Nat :=
  (List.range (e.resolution.1 / e.block_size)).foldl
    (frameStep e data blockY) acc

/-- `PixelEncoder::create_frame`: returns the frame and the advanced
`bit_index`. -/
def createFrame (e : PixelEncoder) (data : Bytes) (bitIndex : Nat) :
    Image × Nat :=
  let w := e.resolution.1
  let h := e.resolution.2
  let blocksY := h / e.block_size
  (List.range blocksY).foldl (frameRow e data) (newImage w h, bitIndex)

/-- `PixelEncoder::encode_to_frames`. -/
def encodeToFrames (e : PixelEncoder) (data : Bytes) : List Image :=
  let bpf := bitsPerFrame e
  let totalBits := data.length * 8
  let numFrames := (totalBits + bpf - 1) / bpf
  ((List.range numFrames).foldl (fun (acc : List Image × Nat) _ =>
    let fr := createFrame e data acc.2
    (acc.1 ++ [fr.1], fr.2)) ([], 0)).1

/-- The body of `read_block`'s inner loop: add the pixel's average channel
brightness to `(sum, count)` if the pixel is inside the frame. -/
def sumStep (bs : Nat) (frame : Image) (blockX blockY dy : Nat)
    (acc2 : Nat × Nat) (dx : Nat) : Nat × Nat :=
  let x := blockX * bs + dx
  let y := blockY * bs + dy
  if x < frame.width ∧ y < frame.height then
    let p := getPixel frame x y
    (acc2.1 + (p.1 + p.2.1 + p.2.2.1) / 3, acc2.2 + 1)
  else acc2

/-- The inner `for dx in 0..block_size` loop of `read_block`. -/
def readRowSum (e : PixelEncoder) (frame : Image) (blockX blockY : Nat)
    (acc : Nat × Nat) (dy : Nat) : Nat × Nat :=
  (List.range e.block_size).foldl (sumStep e.block_size frame blockX blockY dy)
    acc

/-- `PixelEncoder::read_block`: average the channels over the square and
compare against the threshold. -/
def readBlock (e : PixelEncoder) (frame : Image) (blockX blockY : Nat) : Bool :=
  let sc := (List.range e.block_size).foldl
    (readRowSum e frame blockX blockY) (0, 0)
  let avg := if 0 < sc.2 then sc.1 / sc.2 else 255
  decide (avg < e.threshold)

/-- The inner `for block_x in 0..blocks_x` loop of `read_frame`. -/
def readFrameRow (e : PixelEncoder) (frame : Image) (bits : List Bool)
    (blockY : Nat) : List Bool :=
  (List.range (frame.width / e.block_size)).foldl (fun bits2 blockX =>
    bits2 ++ [readBlock e frame blockX blockY]) bits

/-- `PixelEncoder::read_frame`: row-major macropixel bits, grid derived from
the frame's own dimensions. -/
def readFrame (e : PixelEncoder) (frame : Image) : List Bool :=
  let blocksY := frame.height / e.block_size
  (List.range blocksY).foldl (readFrameRow e frame) []

/-- The MSB-first bit-chunk-to-byte accumulation of `decode_from_frames`. -/
def bitsToByteAcc (chunk : List Bool) : Nat :=
  chunk.enum.foldl (fun byte ib =>
    if ib.2 then byte ||| (1 <<< (7 - ib.1)) else byte) 0

/-- The byte-building loop of `decode_from_frames`, with its early break once
`expected` bytes have been produced. -/
def toBytesLoop (chunks : List (List Bool)) (acc : List Nat)
    (expected : Nat) : List Nat :=
  match chunks with
  | [] => acc
  | c :: rest =>
    let acc2 := acc ++ [bitsToByteAcc c]
    if expected ≤ acc2.length then acc2 else toBytesLoop rest acc2 expected

/-- `PixelEncoder::decode_from_frames`. -/
def decodeFromFrames (e : PixelEncoder) (frames : List Image)
    (expectedSize : Nat) : List Nat :=
  let bits := frames.foldl (fun bs f => bs ++ readFrame e f) []
  let data := toBytesLoop (chunksOf 8 bits) [] expectedSize
  data.take expectedSize

/-- Little-endian `u32` serialisation (`to_le_bytes`). -/
def u32le (n : Nat) : List Nat :=
  [n % 256, n / 256 % 256, n / 65536 % 256, n / 16777216 % 256]

/-- Little-endian `u64` serialisation (`to_le_bytes`). -/
def u64le (n : Nat) : List Nat :=
  [n % 256, n / 256 % 256, n / 65536 % 256, n / 16777216 % 256,
   n / 4294967296 % 256, n / 1099511627776 % 256,
   n / 281474976710656 % 256, n / 72057594037927936 % 256]

/-- `u32::from_le_bytes`. -/
def readU32le (b0 b1 b2 b3 : Nat) : Nat :=
  b0 + 256 * b1 + 65536 * b2 + 16777216 * b3

/-- `u64::from_le_bytes`. -/
def readU64le (b0 b1 b2 b3 b4 b5 b6 b7 : Nat) : Nat :=
  b0 + 256 * b1 + 65536 * b2 + 16777216 * b3 + 4294967296 * b4 +
    1099511627776 * b5 + 281474976710656 * b6 + 72057594037927936 * b7

/-- `<PixelEncoder as Encoder>::encode`: header (`frame_count` as `u32`,
`original_size` as `u64`) followed by length-prefixed PNG frame blobs. -/
def pixelEncode (png : PngCodec) (e : PixelEncoder) (data : Bytes) :
    List Nat :=
  let frames := encodeToFrames e data
  let frameCount := frames.length % 4294967296
  let header := u32le frameCount ++ u64le (data.length % 18446744073709551616)
  frames.foldl (fun acc f =>
    let pngData := png.enc f
    acc ++ u32le (pngData.length % 4294967296) ++ pngData) header

/-- The `for _ in 0..frame_count` parsing loop of `decode`. -/
def parseFrames (png : PngCodec) (data : List Nat) (cursor : Nat) :
    Nat → Except Error (List Image)
  | 0 => .ok []
  | count + 1 =>
    if data.length < cursor + 4 then .error (.Decoding "Unexpected end of data")
    else
      let frameSize := readU32le (data.getD cursor 0) (data.getD (cursor + 1) 0)
        (data.getD (cursor + 2) 0) (data.getD (cursor + 3) 0)
      if data.length < cursor + 4 + frameSize then
        .error (.Decoding "Frame data truncated")
      else
        match png.dec ((data.drop (cursor + 4)).take frameSize) with
        | .error e => .error (.Decoding ("PNG decoding failed: " ++ e))
        | .ok img =>
          match parseFrames png data (cursor + 4 + frameSize) count with
          | .error e => .error e
          | .ok rest => .ok (img :: rest)

/-- `<PixelEncoder as Encoder>::decode`: `frame_count` is the `u32` at
offset 0, `original_size` the `u64` at offset 4. -/
def pixelDecode (png : PngCodec) (e : PixelEncoder) (data : List Nat) :
    Except Error (List Nat) :=
  if data.length < 12 then .error (.Decoding "Data too short")
  else
    match parseFrames png data 12 (readU32le (data.getD 0 0) (data.getD 1 0)
      (data.getD 2 0) (data.getD 3 0)) with
    | .error e => .error e
    | .ok frames =>
      .ok (decodeFromFrames e frames (readU64le (data.getD 4 0)
        (data.getD 5 0) (data.getD 6 0) (data.getD 7 0) (data.getD 8 0)
        (data.getD 9 0) (data.getD 10 0) (data.getD 11 0)))

/-! ### Generic fold and list access lemmas -/

theorem foldl_range_succ (f : β → Nat → β) (i : β) (m : Nat) :
    (List.range (m + 1)).foldl f i = f ((List.range m).foldl f i) m := by
  rw [List.range_succ, List.foldl_append]
  rfl

theorem foldl_invariant (l : List α) (f : β → α → β) (P : β → Prop)
    (init : β) (h0 : P init) (hstep : ∀ b a, P b → P (f b a)) :
    P (l.foldl f init) := by
  induction l generalizing init with
  | nil => exact h0
  | cons a rest ih => exact ih (f init a) (hstep init a h0)

theorem foldl_append_f (l : List α) (g : α → List β) (init : List β) :
    l.foldl (fun acc i => acc ++ g i) init = init ++ l.flatMap g := by
  induction l generalizing init with
  | nil => simp
  | cons a rest ih => simp [ih, List.flatMap_cons]

theorem getD_set_self (l : List α) (i : Nat) (h : i < l.length) (a d : α) :
    (l.set i a).getD i d = a := by
  rw [List.getD_eq_getElem?_getD, List.getElem?_set_eq_of_lt a h]
  rfl

theorem getD_set_ne (l : List α) {i j : Nat} (h : i ≠ j) (a d : α) :
    (l.set i a).getD j d = l.getD j d := by
  rw [List.getD_eq_getElem?_getD, List.getElem?_set_ne h,
    ← List.getD_eq_getElem?_getD]

theorem getD_eq_getElem (l : List α) (i : Nat) (h : i < l.length) (d : α) :
    l.getD i d = l[i] := by
  rw [List.getD_eq_getElem?_getD, List.getElem?_eq_getElem h]
  rfl

/-! ### Image buffer lemmas -/

/-- A realisable `RgbaImage`: the rows really have the declared dimensions. -/
def wfImage (img : Image) : Prop :=
  img.rows.length = img.height ∧ ∀ r ∈ img.rows, r.length = img.width

@[simp] theorem width_newImage (w h : Nat) : (newImage w h).width = w := rfl

@[simp] theorem height_newImage (w h : Nat) : (newImage w h).height = h := rfl

theorem wfImage_newImage (w h : Nat) : wfImage (newImage w h) := by
  constructor
  · simp [newImage]
  · intro r hr
    simp only [newImage] at hr
    rw [List.eq_of_mem_replicate hr]
    simp

theorem getD_replicate' (a d : α) (n i : Nat) :
    (List.replicate n a).getD i d = if i < n then a else d := by
  by_cases hin : i < n
  · rw [getD_eq_getElem _ _ (by simpa using hin), List.getElem_replicate,
      if_pos hin]
  · rw [List.getD_eq_getElem?_getD, List.getElem?_eq_none (by simpa using hin),
      if_neg hin]
    rfl

theorem getPixel_newImage (w h x y : Nat) :
    getPixel (newImage w h) x y = (0, 0, 0, 0) := by
  unfold getPixel newImage
  simp only
  rw [getD_replicate']
  by_cases hy : y < h
  · rw [if_pos hy, getD_replicate']
    by_cases hx : x < w
    · rw [if_pos hx]
    · rw [if_neg hx]
  · rw [if_neg hy]
    rfl

@[simp] theorem width_putPixel (img : Image) (x y : Nat) (c : Pixel) :
    (putPixel img x y c).width = img.width := rfl

@[simp] theorem height_putPixel (img : Image) (x y : Nat) (c : Pixel) :
    (putPixel img x y c).height = img.height := rfl

theorem wfImage_putPixel (img : Image) (x y : Nat) (c : Pixel)
    (hwf : wfImage img) : wfImage (putPixel img x y c) := by
  obtain ⟨hlen, hrows⟩ := hwf
  by_cases hy : y < img.rows.length
  · refine ⟨?_, ?_⟩
    · simp only [putPixel, List.length_set]
      exact hlen
    · intro r hr
      simp only [putPixel] at hr
      rcases List.mem_or_eq_of_mem_set hr with hr | hr
      · exact hrows r hr
      · subst hr
        rw [List.length_set]
        exact hrows _ (by
          rw [getD_eq_getElem _ _ hy]
          exact List.getElem_mem hy)
  · have hset : img.rows.set y ((img.rows.getD y []).set x c) = img.rows :=
      List.set_eq_of_length_le (by omega)
    refine ⟨?_, ?_⟩
    · simp only [putPixel, hset]
      exact hlen
    · intro r hr
      simp only [putPixel, hset] at hr
      exact hrows r hr

theorem getPixel_putPixel_self (img : Image) (x y : Nat) (c : Pixel)
    (hwf : wfImage img) (hx : x < img.width) (hy : y < img.height) :
    getPixel (putPixel img x y c) x y = c := by
  obtain ⟨hlen, hrows⟩ := hwf
  have hylen : y < img.rows.length := by omega
  have hrow : (img.rows.getD y []).length = img.width := by
    rw [getD_eq_getElem _ _ hylen]
    exact hrows _ (List.getElem_mem hylen)
  unfold getPixel putPixel
  simp only
  rw [getD_set_self _ _ hylen, getD_set_self _ _ (by omega)]

theorem getPixel_putPixel_ne (img : Image) (x y : Nat) (c : Pixel)
    (x' y' : Nat) (hne : ¬(x' = x ∧ y' = y)) :
    getPixel (putPixel img x y c) x' y' = getPixel img x' y' := by
  unfold getPixel putPixel
  simp only
  by_cases hy : y' = y
  · subst hy
    have hx : x' ≠ x := fun h => hne ⟨h, rfl⟩
    by_cases hylen : y' < img.rows.length
    · rw [getD_set_self _ _ hylen, getD_set_ne _ (fun h => hx h.symm)]
    · rw [List.set_eq_of_length_le (by omega)]
  · rw [getD_set_ne _ (fun h => hy h.symm)]

/-! ### Characterisation of `fill_block` -/

/-- Partial runs of `fill_block`'s inner loop paint the first `m` pixels of
one macropixel row. -/
theorem paintFold_spec (bs bx gy dy : Nat) (c : Pixel) (m : Nat) (img : Image)
    (hwf : wfImage img) :
    wfImage ((List.range m).foldl (paintStep bs bx gy dy c) img) ∧
    ((List.range m).foldl (paintStep bs bx gy dy c) img).width = img.width ∧
    ((List.range m).foldl (paintStep bs bx gy dy c) img).height = img.height ∧
    ∀ x y, getPixel ((List.range m).foldl (paintStep bs bx gy dy c) img) x y =
      if bx * bs ≤ x ∧ x < bx * bs + m ∧ y = gy * bs + dy ∧
         x < img.width ∧ y < img.height
      then c else getPixel img x y := by
  induction m with
  | zero =>
    refine ⟨hwf, rfl, rfl, ?_⟩
    intro x y
    rw [if_neg (by omega)]
    rfl
  | succ m ih =>
    obtain ⟨hwfm, hwm, hhm, hpix⟩ := ih
    rw [foldl_range_succ]
    have hstep : paintStep bs bx gy dy c
        ((List.range m).foldl (paintStep bs bx gy dy c) img) m =
        if bx * bs + m < ((List.range m).foldl (paintStep bs bx gy dy c)
            img).width ∧ gy * bs + dy < ((List.range m).foldl
            (paintStep bs bx gy dy c) img).height then
          putPixel ((List.range m).foldl (paintStep bs bx gy dy c) img)
            (bx * bs + m) (gy * bs + dy) c
        else (List.range m).foldl (paintStep bs bx gy dy c) img := rfl
    by_cases hguard : bx * bs + m < ((List.range m).foldl
        (paintStep bs bx gy dy c) img).width ∧ gy * bs + dy <
        ((List.range m).foldl (paintStep bs bx gy dy c) img).height
    · rw [hstep, if_pos hguard]
      refine ⟨wfImage_putPixel _ _ _ _ hwfm, by simp [hwm], by simp [hhm], ?_⟩
      intro x y
      rw [hwm] at hguard
      rw [hhm] at hguard
      by_cases hxy : x = bx * bs + m ∧ y = gy * bs + dy
      · rw [hxy.1, hxy.2,
          getPixel_putPixel_self _ _ _ _ hwfm (by omega) (by omega)]
        rw [if_pos (by omega)]
      · rw [getPixel_putPixel_ne _ _ _ _ _ _ hxy, hpix x y]
        apply if_congr _ rfl rfl
        constructor <;> intro h <;> omega
    · rw [hstep, if_neg hguard]
      refine ⟨hwfm, hwm, hhm, ?_⟩
      intro x y
      rw [hwm] at hguard
      rw [hhm] at hguard
      rw [hpix x y]
      apply if_congr _ rfl rfl
      constructor <;> intro h <;> omega

/-- `fill_block` paints exactly the in-bounds part of its macropixel square. -/
theorem fillBlock_spec (e : PixelEncoder) (img : Image) (bx gy : Nat)
    (c : Pixel) (hwf : wfImage img) :
    wfImage (fillBlock e img bx gy c) ∧
    (fillBlock e img bx gy c).width = img.width ∧
    (fillBlock e img bx gy c).height = img.height ∧
    ∀ x y, getPixel (fillBlock e img bx gy c) x y =
      if bx * e.block_size ≤ x ∧ x < bx * e.block_size + e.block_size ∧
         gy * e.block_size ≤ y ∧ y < gy * e.block_size + e.block_size ∧
         x < img.width ∧ y < img.height
      then c else getPixel img x y := by
  have main : ∀ (m : Nat) (img : Image), wfImage img →
      wfImage ((List.range m).foldl
        (fun img1 dy => fillRow e img1 bx gy dy c) img) ∧
      ((List.range m).foldl (fun img1 dy => fillRow e img1 bx gy dy c)
        img).width = img.width ∧
      ((List.range m).foldl (fun img1 dy => fillRow e img1 bx gy dy c)
        img).height = img.height ∧
      ∀ x y, getPixel ((List.range m).foldl
          (fun img1 dy => fillRow e img1 bx gy dy c) img) x y =
        if bx * e.block_size ≤ x ∧ x < bx * e.block_size + e.block_size ∧
           gy * e.block_size ≤ y ∧ y < gy * e.block_size + m ∧
           x < img.width ∧ y < img.height
        then c else getPixel img x y := by
    intro m
    induction m with
    | zero =>
      intro img hwf
      refine ⟨hwf, rfl, rfl, ?_⟩
      intro x y
      rw [if_neg (by omega)]
      rfl
    | succ m ih =>
      intro img hwf
      obtain ⟨hwfm, hwm, hhm, hpix⟩ := ih img hwf
      rw [foldl_range_succ]
      set prev := (List.range m).foldl
        (fun img1 dy => fillRow e img1 bx gy dy c) img with hprev
      obtain ⟨hwfr, hwr, hhr, hrow⟩ :=
        paintFold_spec e.block_size bx gy m c e.block_size prev hwfm
      have hfr : fillRow e prev bx gy m c =
          (List.range e.block_size).foldl (paintStep e.block_size bx gy m c)
            prev := rfl
      rw [hfr]
      refine ⟨hwfr, by rw [hwr, hwm], by rw [hhr, hhm], ?_⟩
      intro x y
      rw [hrow x y, hwm, hhm, hpix x y]
      by_cases hy : y = gy * e.block_size + m
      · subst hy
        by_cases hx : bx * e.block_size ≤ x ∧
            x < bx * e.block_size + e.block_size ∧ x < img.width ∧
            gy * e.block_size + m < img.height
        · rw [if_pos (by omega), if_pos (by omega)]
        · rw [if_neg (by omega), if_neg (by omega), if_neg (by omega)]
      · rw [if_neg (by omega)]
        apply if_congr _ rfl rfl
        constructor <;> intro h <;> omega
  exact main e.block_size img hwf

/-! ### Characterisation of `create_frame` -/

theorem rowmajor_div (bs q r : Nat) (hbs : 0 < bs) (hr : r < bs) :
    (q * bs + r) / bs = q := by
  rw [Nat.mul_comm q bs, Nat.mul_add_div hbs, Nat.div_eq_of_lt hr]
  omega

theorem rowmajor_uniq (X a b g c : Nat) (hb : b < X) (hc : c < X)
    (h : a * X + b = g * X + c) : a = g ∧ b = c := by
  have hX : 0 < X := by omega
  have ha : (a * X + b) / X = a := rowmajor_div X a b hX hb
  have hg : (g * X + c) / X = g := rowmajor_div X g c hX hc
  have hag : a = g := by rw [← ha, h, hg]
  subst hag
  refine ⟨rfl, by omega⟩

/-- Division bounds for a coordinate inside macropixel `q`. -/
theorem div_block_bounds (bs x q : Nat) (hbs : 0 < bs) (hdiv : x / bs = q) :
    q * bs ≤ x ∧ x < q * bs + bs := by
  have h1 : bs * (x / bs) + x % bs = x := Nat.div_add_mod x bs
  have h2 : x % bs < bs := Nat.mod_lt x hbs
  rw [hdiv, Nat.mul_comm bs q] at h1
  constructor <;> omega

/-- Loop invariant of `create_frame`: after the first `done` macropixels (in
row-major order), `bit_index` has advanced by `done`, the processed
macropixels carry their bit's color, and all other pixels are still
zero-initialised. -/
def frameInv (e : PixelEncoder) (data : Bytes) (start done : Nat)
    (st : Image × Nat) : Prop :=
  st.2 = start + done ∧ wfImage st.1 ∧ st.1.width = e.resolution.1 ∧
  st.1.height = e.resolution.2 ∧
  ∀ x y, x < e.resolution.1 → y < e.resolution.2 →
    getPixel st.1 x y =
      if x < (e.resolution.1 / e.block_size) * e.block_size ∧
         y < (e.resolution.2 / e.block_size) * e.block_size ∧
         (y / e.block_size) * (e.resolution.1 / e.block_size) +
           x / e.block_size < done
      then colorOf (getBit data (start + ((y / e.block_size) *
        (e.resolution.1 / e.block_size) + x / e.block_size)))
      else (0, 0, 0, 0)

theorem frameStep_inv (e : PixelEncoder) (data : Bytes) (start : Nat)
    (hbs : 1 ≤ e.block_size) (gy bx : Nat)
    (hgy : gy < e.resolution.2 / e.block_size)
    (hbx : bx < e.resolution.1 / e.block_size) (st : Image × Nat)
    (hinv : frameInv e data start
      (gy * (e.resolution.1 / e.block_size) + bx) st) :
    frameInv e data start (gy * (e.resolution.1 / e.block_size) + bx + 1)
      (frameStep e data gy st bx) := by
  obtain ⟨hidx, hwf, hw, hh, hpix⟩ := hinv
  obtain ⟨hwf2, hw2, hh2, hchar⟩ := fillBlock_spec e st.1 bx gy
    (colorOf (getBit data st.2)) hwf
  have hXbs : (e.resolution.1 / e.block_size) * e.block_size ≤
      e.resolution.1 := Nat.div_mul_le_self e.resolution.1 e.block_size
  have hYbs : (e.resolution.2 / e.block_size) * e.block_size ≤
      e.resolution.2 := Nat.div_mul_le_self e.resolution.2 e.block_size
  have hbx1 : bx * e.block_size + e.block_size ≤
      (e.resolution.1 / e.block_size) * e.block_size := by
    have := Nat.mul_le_mul_right e.block_size
      (show bx + 1 ≤ e.resolution.1 / e.block_size by omega)
    rw [Nat.succ_mul] at this
    exact this
  have hgy1 : gy * e.block_size + e.block_size ≤
      (e.resolution.2 / e.block_size) * e.block_size := by
    have := Nat.mul_le_mul_right e.block_size
      (show gy + 1 ≤ e.resolution.2 / e.block_size by omega)
    rw [Nat.succ_mul] at this
    exact this
  refine ⟨?_, hwf2, ?_, ?_, ?_⟩
  · show st.2 + 1 = start + (gy * (e.resolution.1 / e.block_size) + bx + 1)
    omega
  · show (fillBlock e st.1 bx gy (colorOf (getBit data st.2))).width = _
    rw [hw2, hw]
  · show (fillBlock e st.1 bx gy (colorOf (getBit data st.2))).height = _
    rw [hh2, hh]
  intro x y hx hy
  show getPixel (fillBlock e st.1 bx gy (colorOf (getBit data st.2))) x y = _
  rw [hchar x y, hw, hh]
  by_cases hrect : bx * e.block_size ≤ x ∧ x < bx * e.block_size +
      e.block_size ∧ gy * e.block_size ≤ y ∧ y < gy * e.block_size +
      e.block_size
  · rw [if_pos (by exact ⟨hrect.1, hrect.2.1, hrect.2.2.1, hrect.2.2.2,
      hx, hy⟩)]
    have hxdiv : x / e.block_size = bx := by
      rw [show x = bx * e.block_size + (x - bx * e.block_size) from by omega]
      exact rowmajor_div e.block_size bx (x - bx * e.block_size) (by omega)
        (by omega)
    have hydiv : y / e.block_size = gy := by
      rw [show y = gy * e.block_size + (y - gy * e.block_size) from by omega]
      exact rowmajor_div e.block_size gy (y - gy * e.block_size) (by omega)
        (by omega)
    rw [if_pos (by
      refine ⟨by omega, by omega, ?_⟩
      rw [hxdiv, hydiv]
      omega)]
    rw [hxdiv, hydiv, hidx]
  · rw [if_neg (by
      intro habs
      exact hrect ⟨habs.1, habs.2.1, habs.2.2.1, habs.2.2.2.1⟩)]
    rw [hpix x y hx hy]
    apply if_congr _ rfl rfl
    constructor
    · intro h
      exact ⟨h.1, h.2.1, by omega⟩
    · intro h
      refine ⟨h.1, h.2.1, ?_⟩
      rcases Nat.lt_or_ge ((y / e.block_size) *
        (e.resolution.1 / e.block_size) + x / e.block_size)
        (gy * (e.resolution.1 / e.block_size) + bx) with hlt | hge
      · exact hlt
      · exfalso
        have heq : (y / e.block_size) * (e.resolution.1 / e.block_size) +
            x / e.block_size = gy * (e.resolution.1 / e.block_size) + bx := by
          omega
        have hxX : x / e.block_size < e.resolution.1 / e.block_size := by
          have hlt2 : x < e.block_size * (e.resolution.1 / e.block_size) := by
            rw [Nat.mul_comm]
            exact h.1
          exact Nat.div_lt_of_lt_mul hlt2
        obtain ⟨hyg, hxb⟩ := rowmajor_uniq (e.resolution.1 / e.block_size)
          (y / e.block_size) (x / e.block_size) gy bx hxX hbx heq
        obtain ⟨hxlo, hxhi⟩ := div_block_bounds e.block_size x bx (by omega) hxb
        obtain ⟨hylo, hyhi⟩ := div_block_bounds e.block_size y gy (by omega) hyg
        exact hrect ⟨hxlo, hxhi, hylo, hyhi⟩

theorem frameRow_inv (e : PixelEncoder) (data : Bytes) (start : Nat)
    (hbs : 1 ≤ e.block_size) (gy : Nat)
    (hgy : gy < e.resolution.2 / e.block_size) (st : Image × Nat)
    (hinv : frameInv e data start
      (gy * (e.resolution.1 / e.block_size)) st) :
    frameInv e data start ((gy + 1) * (e.resolution.1 / e.block_size))
      (frameRow e data st gy) := by
  have aux : ∀ m, m ≤ e.resolution.1 / e.block_size →
      frameInv e data start (gy * (e.resolution.1 / e.block_size) + m)
        ((List.range m).foldl (frameStep e data gy) st) := by
    intro m
    induction m with
    | zero =>
      intro _
      exact hinv
    | succ m ih =>
      intro hm
      rw [foldl_range_succ]
      exact frameStep_inv e data start hbs gy m hgy (by omega) _
        (ih (by omega))
  rw [Nat.succ_mul]
  exact aux (e.resolution.1 / e.block_size) le_rfl

theorem createFrame_inv (e : PixelEncoder) (data : Bytes) (start : Nat)
    (hbs : 1 ≤ e.block_size) :
    frameInv e data start ((e.resolution.2 / e.block_size) *
      (e.resolution.1 / e.block_size)) (createFrame e data start) := by
  have aux : ∀ g, g ≤ e.resolution.2 / e.block_size →
      frameInv e data start (g * (e.resolution.1 / e.block_size))
        ((List.range g).foldl (frameRow e data)
          (newImage e.resolution.1 e.resolution.2, start)) := by
    intro g
    induction g with
    | zero =>
      intro _
      rw [Nat.zero_mul]
      refine ⟨by simp, wfImage_newImage _ _, rfl, rfl, ?_⟩
      intro x y _ _
      rw [if_neg (fun h => Nat.not_lt_zero _ h.2.2)]
      exact getPixel_newImage _ _ x y
    | succ g ih =>
      intro hg
      rw [foldl_range_succ]
      exact frameRow_inv e data start hbs g (by omega) _ (ih (by omega))
  exact aux (e.resolution.2 / e.block_size) le_rfl

/-- Full characterisation of `create_frame`: the bit index advances by
`bits_per_frame`, the frame has the configured dimensions, and every pixel of
macropixel `(bx, gy)` carries the color of bit `start + gy·blocksX + bx`. -/
theorem createFrame_spec (e : PixelEncoder) (data : Bytes) (start : Nat)
    (hbs : 1 ≤ e.block_size) :
    (createFrame e data start).2 = start + bitsPerFrame e ∧
    wfImage (createFrame e data start).1 ∧
    (createFrame e data start).1.width = e.resolution.1 ∧
    (createFrame e data start).1.height = e.resolution.2 ∧
    ∀ gy bx dx dy, gy < e.resolution.2 / e.block_size →
      bx < e.resolution.1 / e.block_size →
      dx < e.block_size → dy < e.block_size →
      getPixel (createFrame e data start).1 (bx * e.block_size + dx)
        (gy * e.block_size + dy) =
      colorOf (getBit data
        (start + (gy * (e.resolution.1 / e.block_size) + bx))) := by
  obtain ⟨hidx, hwf, hw, hh, hpix⟩ := createFrame_inv e data start hbs
  have hXbs : (e.resolution.1 / e.block_size) * e.block_size ≤
      e.resolution.1 := Nat.div_mul_le_self e.resolution.1 e.block_size
  have hYbs : (e.resolution.2 / e.block_size) * e.block_size ≤
      e.resolution.2 := Nat.div_mul_le_self e.resolution.2 e.block_size
  refine ⟨by rw [hidx, bitsPerFrame, Nat.mul_comm], hwf, hw, hh, ?_⟩
  intro gy bx dx dy hgy hbx hdx hdy
  have hbx1 : bx * e.block_size + e.block_size ≤
      (e.resolution.1 / e.block_size) * e.block_size := by
    have := Nat.mul_le_mul_right e.block_size
      (show bx + 1 ≤ e.resolution.1 / e.block_size by omega)
    rw [Nat.succ_mul] at this
    exact this
  have hgy1 : gy * e.block_size + e.block_size ≤
      (e.resolution.2 / e.block_size) * e.block_size := by
    have := Nat.mul_le_mul_right e.block_size
      (show gy + 1 ≤ e.resolution.2 / e.block_size by omega)
    rw [Nat.succ_mul] at this
    exact this
  have hxdiv : (bx * e.block_size + dx) / e.block_size = bx :=
    rowmajor_div e.block_size bx dx (by omega) hdx
  have hydiv : (gy * e.block_size + dy) / e.block_size = gy :=
    rowmajor_div e.block_size gy dy (by omega) hdy
  have hdone : gy * (e.resolution.1 / e.block_size) + bx <
      (e.resolution.2 / e.block_size) * (e.resolution.1 / e.block_size) := by
    have := Nat.mul_le_mul_right (e.resolution.1 / e.block_size)
      (show gy + 1 ≤ e.resolution.2 / e.block_size by omega)
    rw [Nat.succ_mul] at this
    omega
  rw [hpix (bx * e.block_size + dx) (gy * e.block_size + dy) (by omega)
    (by omega), if_pos (by rw [hxdiv, hydiv]; exact ⟨by omega, by omega,
    hdone⟩), hxdiv, hydiv]

/-! ### Characterisation of `read_block` and `read_frame` -/

/-- On a macropixel whose pixels all carry the gray value `v`, `read_block`
compares `v` itself against the threshold. -/
theorem readBlock_spec (e : PixelEncoder) (frame : Image) (bx gy v : Nat)
    (hbs : 1 ≤ e.block_size)
    (hx1 : bx * e.block_size + e.block_size ≤ frame.width)
    (hy1 : gy * e.block_size + e.block_size ≤ frame.height)
    (huni : ∀ dx dy, dx < e.block_size → dy < e.block_size →
      getPixel frame (bx * e.block_size + dx) (gy * e.block_size + dy) =
        (v, v, v, 255)) :
    readBlock e frame bx gy = decide (v < e.threshold) := by
  have hrow : ∀ dy, dy < e.block_size → ∀ m, m ≤ e.block_size →
      ∀ acc : Nat × Nat,
      (List.range m).foldl (sumStep e.block_size frame bx gy dy) acc =
        (acc.1 + m * v, acc.2 + m) := by
    intro dy hdy m
    induction m with
    | zero =>
      intro _ acc
      simp
    | succ m ih =>
      intro hm acc
      rw [foldl_range_succ, ih (by omega) acc]
      have hx : bx * e.block_size + m < frame.width := by omega
      have hy : gy * e.block_size + dy < frame.height := by omega
      have hstep : sumStep e.block_size frame bx gy dy
          (acc.1 + m * v, acc.2 + m) m =
          (acc.1 + m * v + (v + v + v) / 3, acc.2 + m + 1) := by
        unfold sumStep
        rw [if_pos ⟨hx, hy⟩, huni m dy (by omega) hdy]
      rw [hstep]
      have h3 : (v + v + v) / 3 = v := by omega
      rw [h3, Nat.succ_mul]
      simp only [Prod.mk.injEq]
      exact ⟨by omega, by omega⟩
  have houter : ∀ m, m ≤ e.block_size → ∀ acc : Nat × Nat,
      (List.range m).foldl (readRowSum e frame bx gy) acc =
        (acc.1 + m * (e.block_size * v), acc.2 + m * e.block_size) := by
    intro m
    induction m with
    | zero =>
      intro _ acc
      simp
    | succ m ih =>
      intro hm acc
      rw [foldl_range_succ, ih (by omega) acc]
      have : readRowSum e frame bx gy
          (acc.1 + m * (e.block_size * v), acc.2 + m * e.block_size) m =
          (acc.1 + m * (e.block_size * v) + e.block_size * v,
            acc.2 + m * e.block_size + e.block_size) := by
        unfold readRowSum
        rw [hrow m (by omega) e.block_size le_rfl]
      rw [this, Nat.succ_mul m (e.block_size * v), Nat.succ_mul m e.block_size]
      simp only [Prod.mk.injEq]
      exact ⟨by omega, by omega⟩
  unfold readBlock
  rw [houter e.block_size le_rfl (0, 0)]
  have hcpos : 0 < e.block_size * e.block_size := Nat.mul_pos hbs hbs
  have hsum : (0 : Nat) + e.block_size * (e.block_size * v) =
      (e.block_size * e.block_size) * v := by
    rw [Nat.mul_assoc]
    omega
  have hcount : (0 : Nat) + e.block_size * e.block_size =
      e.block_size * e.block_size := by omega
  simp only [hsum, hcount]
  rw [if_pos hcpos, Nat.mul_div_cancel_left v hcpos]

theorem flatMap_singleton_eq_map (l : List α) (f : α → β) :
    l.flatMap (fun i => [f i]) = l.map f := by
  induction l with
  | nil => rfl
  | cons a rest ih => simp [ih]

/-- Folding `acc ++ [f i]` over a list appends the mapped list. -/
theorem foldl_append_map (l : List α) (f : α → β) (init : List β) :
    l.foldl (fun acc i => acc ++ [f i]) init = init ++ l.map f := by
  rw [foldl_append_f l (fun i => [f i]) init, flatMap_singleton_eq_map]

/-- `read_frame` is the row-major list of `read_block` bits. -/
theorem readFrame_spec (e : PixelEncoder) (frame : Image) :
    readFrame e frame =
      (List.range (frame.height / e.block_size)).flatMap (fun gy =>
        (List.range (frame.width / e.block_size)).map (fun bx =>
          readBlock e frame bx gy)) := by
  unfold readFrame
  have hrow : ∀ bits gy, readFrameRow e frame bits gy =
      bits ++ (List.range (frame.width / e.block_size)).map
        (fun bx => readBlock e frame bx gy) := by
    intro bits gy
    unfold readFrameRow
    exact foldl_append_map _ _ bits
  have : (List.range (frame.height / e.block_size)).foldl
      (readFrameRow e frame) [] =
      (List.range (frame.height / e.block_size)).foldl
        (fun bits gy => bits ++ (List.range (frame.width / e.block_size)).map
          (fun bx => readBlock e frame bx gy)) [] := by
    congr 1
    funext bits gy
    exact hrow bits gy
  rw [this, foldl_append_f]
  rfl

/-- Row-major double enumeration flattens to a single range. -/
theorem flatMap_rowmajor (Y X : Nat) (f : Nat → α) :
    (List.range Y).flatMap (fun gy =>
      (List.range X).map (fun bx => f (gy * X + bx))) =
    (List.range (Y * X)).map f := by
  induction Y with
  | zero => simp
  | succ Y ih =>
    rw [List.range_succ, List.flatMap_append, ih, Nat.succ_mul,
      List.range_add, List.map_append, List.map_map]
    simp only [List.flatMap_cons, List.flatMap_nil, List.append_nil]
    congr 1

/-! ### The encoded frame sequence and its bit stream -/

theorem encodeToFrames_spec (e : PixelEncoder) (data : Bytes)
    (hbs : 1 ≤ e.block_size) :
    encodeToFrames e data =
      (List.range ((data.length * 8 + bitsPerFrame e - 1) / bitsPerFrame e)).map
        (fun t => (createFrame e data (t * bitsPerFrame e)).1) := by
  have aux : ∀ m, (List.range m).foldl (fun (acc : List Image × Nat) _ =>
      let fr := createFrame e data acc.2
      (acc.1 ++ [fr.1], fr.2)) ([], 0) =
      ((List.range m).map (fun t => (createFrame e data
        (t * bitsPerFrame e)).1), m * bitsPerFrame e) := by
    intro m
    induction m with
    | zero => simp
    | succ m ih =>
      rw [foldl_range_succ, ih]
      simp only
      obtain ⟨hidx, _, _, _, _⟩ :=
        createFrame_spec e data (m * bitsPerFrame e) hbs
      rw [hidx, List.range_succ, List.map_append]
      simp only [List.map_cons, List.map_nil, Prod.mk.injEq]
      exact ⟨by simp, by rw [Nat.succ_mul]⟩
  exact congrArg Prod.fst (aux _)

/-- With the default threshold 128, reading an encoded frame's macropixel
recovers the encoded bit. -/
theorem readBlock_encoded (e : PixelEncoder) (data : Bytes) (start : Nat)
    (hbs : 1 ≤ e.block_size) (hthr : e.threshold = 128) (gy bx : Nat)
    (hgy : gy < e.resolution.2 / e.block_size)
    (hbx : bx < e.resolution.1 / e.block_size) :
    readBlock e (createFrame e data start).1 bx gy =
      getBit data (start + (gy * (e.resolution.1 / e.block_size) + bx)) := by
  obtain ⟨_, _, hw, hh, hpix⟩ := createFrame_spec e data start hbs
  have hXbs : (e.resolution.1 / e.block_size) * e.block_size ≤
      e.resolution.1 := Nat.div_mul_le_self e.resolution.1 e.block_size
  have hYbs : (e.resolution.2 / e.block_size) * e.block_size ≤
      e.resolution.2 := Nat.div_mul_le_self e.resolution.2 e.block_size
  have hbx1 : bx * e.block_size + e.block_size ≤
      (e.resolution.1 / e.block_size) * e.block_size := by
    have := Nat.mul_le_mul_right e.block_size
      (show bx + 1 ≤ e.resolution.1 / e.block_size by omega)
    rw [Nat.succ_mul] at this
    exact this
  have hgy1 : gy * e.block_size + e.block_size ≤
      (e.resolution.2 / e.block_size) * e.block_size := by
    have := Nat.mul_le_mul_right e.block_size
      (show gy + 1 ≤ e.resolution.2 / e.block_size by omega)
    rw [Nat.succ_mul] at this
    exact this
  set b := getBit data (start + (gy * (e.resolution.1 / e.block_size) + bx))
    with hbdef
  have hcolor : colorOf b = (if b then 0 else 255, if b then 0 else 255,
      if b then 0 else 255, 255) := by
    cases b <;> rfl
  have := readBlock_spec e (createFrame e data start).1 bx gy
    (if b then 0 else 255) hbs (by omega) (by omega) (by
      intro dx dy hdx hdy
      rw [hpix gy bx dx dy hgy hbx hdx hdy, ← hbdef, hcolor])
  rw [this, hthr]
  cases b <;> rfl

theorem flatMap_congr_mem (l : List α) (f g : α → List β)
    (h : ∀ a ∈ l, f a = g a) : l.flatMap f = l.flatMap g := by
  induction l with
  | nil => rfl
  | cons a rest ih =>
    simp only [List.flatMap_cons, h a (by simp)]
    rw [ih fun x hx => h x (by simp [hx])]

theorem flatMap_map_comp (l : List α) (f : α → β) (g : β → List γ) :
    (l.map f).flatMap g = l.flatMap (fun a => g (f a)) := by
  induction l with
  | nil => rfl
  | cons a rest ih => simp only [List.map_cons, List.flatMap_cons, ih]

/-- The concatenated bit stream read back from the encoded frames is exactly
the (zero-padded) MSB-first bit stream of the input. -/
theorem encoded_bits_spec (e : PixelEncoder) (data : Bytes)
    (hbs : 1 ≤ e.block_size) (hthr : e.threshold = 128) :
    (encodeToFrames e data).foldl (fun bs f => bs ++ readFrame e f) [] =
      (List.range (((data.length * 8 + bitsPerFrame e - 1) / bitsPerFrame e) *
        bitsPerFrame e)).map (getBit data) := by
  rw [foldl_append_f, encodeToFrames_spec e data hbs]
  have hframe : ∀ t, readFrame e (createFrame e data (t * bitsPerFrame e)).1 =
      (List.range (bitsPerFrame e)).map
        (fun j => getBit data (t * bitsPerFrame e + j)) := by
    intro t
    obtain ⟨_, _, hw, hh, _⟩ :=
      createFrame_spec e data (t * bitsPerFrame e) hbs
    rw [readFrame_spec, hw, hh]
    have hinner : ∀ gy ∈ List.range (e.resolution.2 / e.block_size),
        (List.range (e.resolution.1 / e.block_size)).map
          (fun bx => readBlock e (createFrame e data
            (t * bitsPerFrame e)).1 bx gy) =
        (List.range (e.resolution.1 / e.block_size)).map
          (fun bx => getBit data (t * bitsPerFrame e +
            (gy * (e.resolution.1 / e.block_size) + bx))) := by
      intro gy hgy
      apply List.map_congr_left
      intro bx hbx
      exact readBlock_encoded e data (t * bitsPerFrame e) hbs hthr gy bx
        (by simpa using hgy) (by simpa using hbx)
    rw [flatMap_congr_mem _ _ _ hinner,
      flatMap_rowmajor (e.resolution.2 / e.block_size)
        (e.resolution.1 / e.block_size)
        (fun j => getBit data (t * bitsPerFrame e + j))]
    rw [show (e.resolution.2 / e.block_size) *
      (e.resolution.1 / e.block_size) = bitsPerFrame e from by
        rw [bitsPerFrame, Nat.mul_comm]]
  rw [List.nil_append, flatMap_map_comp,
    flatMap_congr_mem _ _ _ (fun t _ => hframe t),
    flatMap_rowmajor _ (bitsPerFrame e) (getBit data)]

/-! ### Reassembling bytes from the bit stream -/

theorem getBit_shift (b : Nat) (rest : Bytes) (i : Nat) :
    getBit (b :: rest) (8 + i) = getBit rest i := by
  unfold getBit
  simp only
  have hdiv : (8 + i) / 8 = i / 8 + 1 := by
    rw [Nat.add_comm]
    exact Nat.add_div_right i (by omega)
  have hmod : (8 + i) % 8 = i % 8 := by omega
  rw [hdiv, hmod]
  by_cases hc : rest.length ≤ i / 8
  · rw [if_pos (by simp; omega), if_pos hc]
  · rw [if_neg (by simp; omega), if_neg hc, List.getD_cons_succ]

theorem getBit_head (b : Nat) (rest : Bytes) (j : Nat) (hj : j < 8) :
    getBit (b :: rest) j = (((b >>> (7 - j)) &&& 1) == 1) := by
  unfold getBit
  simp only
  rw [Nat.div_eq_of_lt hj, Nat.mod_eq_of_lt hj]
  rw [if_neg (by simp)]
  rfl

set_option maxRecDepth 4000 in
theorem bitsToByteAcc_byte :
    ∀ b < 256, bitsToByteAcc ((List.range 8).map
      (fun j => (((b >>> (7 - j)) &&& 1) == 1))) = b := by
  decide

theorem toBytesLoop_take (chunks : List (List Bool)) (acc : List Nat)
    (expected : Nat) :
    (toBytesLoop chunks acc expected).take expected =
      (acc ++ chunks.map bitsToByteAcc).take expected := by
  induction chunks generalizing acc with
  | nil =>
    rw [show toBytesLoop [] acc expected = acc from rfl]
    simp
  | cons c rest ih =>
    rw [toBytesLoop]
    by_cases hc : expected ≤ (acc ++ [bitsToByteAcc c]).length
    · rw [if_pos hc, List.map_cons,
        show acc ++ bitsToByteAcc c :: rest.map bitsToByteAcc =
          (acc ++ [bitsToByteAcc c]) ++ rest.map bitsToByteAcc from by
            simp,
        List.take_append_of_le_length hc]
    · rw [if_neg hc, ih (acc ++ [bitsToByteAcc c]), List.map_cons]
      congr 1
      simp

/-- Chopping the padded bit stream of `data` into bytes recovers `data`. -/
theorem bytes_from_bits (data : Bytes) (hb : ∀ b ∈ data, b < 256) :
    ∀ extra : Nat,
    ((chunksOf 8 ((List.range (8 * data.length + extra)).map
      (getBit data))).map bitsToByteAcc).take data.length = data := by
  induction data with
  | nil => simp
  | cons b rest ih =>
    intro extra
    have hsplit : 8 * (b :: rest).length + extra =
        8 + (8 * rest.length + extra) := by
      simp only [List.length_cons]
      omega
    rw [hsplit, List.range_add, List.map_append, List.map_map]
    have hhead : (List.range 8).map (getBit (b :: rest)) =
        (List.range 8).map (fun j => (((b >>> (7 - j)) &&& 1) == 1)) := by
      apply List.map_congr_left
      intro j hj
      exact getBit_head b rest j (by simpa using hj)
    have htail : (List.range (8 * rest.length + extra)).map
        (getBit (b :: rest) ∘ (8 + ·)) =
        (List.range (8 * rest.length + extra)).map (getBit rest) := by
      apply List.map_congr_left
      intro i _
      exact getBit_shift b rest i
    rw [hhead, htail]
    have hlen8 : ((List.range 8).map
        (fun j => (((b >>> (7 - j)) &&& 1) == 1))).length = 8 := by simp
    have hne : (List.range 8).map (fun j => (((b >>> (7 - j)) &&& 1) == 1)) ++
        (List.range (8 * rest.length + extra)).map (getBit rest) ≠ [] := by
      intro habs
      have := congrArg List.length habs
      simp at this
    rw [chunksOf_eq_cons 8 (by omega) _ hne, List.take_left' hlen8,
      List.drop_left' hlen8, List.map_cons,
      bitsToByteAcc_byte b (hb b (by simp))]
    simp only [List.length_cons, List.take_succ_cons]
    rw [ih (fun x hx => hb x (by simp [hx])) extra]

/-- Decoding the frames produced by `encode_to_frames` recovers the input. -/
theorem decodeFromFrames_encode (e : PixelEncoder) (data : Bytes)
    (hbs : 1 ≤ e.block_size) (hbpf : 1 ≤ bitsPerFrame e)
    (hthr : e.threshold = 128) (hbytes : ∀ b ∈ data, b < 256) :
    decodeFromFrames e (encodeToFrames e data) data.length = data := by
  unfold decodeFromFrames
  rw [encoded_bits_spec e data hbs hthr]
  have hcover : data.length * 8 ≤
      ((data.length * 8 + bitsPerFrame e - 1) / bitsPerFrame e) *
        bitsPerFrame e := by
    have := le_mul_ceilDiv (data.length * 8) (bitsPerFrame e) hbpf
    rw [Nat.mul_comm (bitsPerFrame e)] at this
    exact this
  rw [show ((data.length * 8 + bitsPerFrame e - 1) / bitsPerFrame e) *
      bitsPerFrame e = 8 * data.length +
      (((data.length * 8 + bitsPerFrame e - 1) / bitsPerFrame e) *
        bitsPerFrame e - 8 * data.length) from by omega]
  rw [toBytesLoop_take, List.nil_append]
  exact bytes_from_bits data hbytes _

/-! ### Container serialisation -/

theorem readU32le_u32le (n : Nat) (h : n < 4294967296) :
    readU32le (n % 256) (n / 256 % 256) (n / 65536 % 256)
      (n / 16777216 % 256) = n := by
  unfold readU32le
  omega

theorem readU64le_u64le (n : Nat) (h : n < 18446744073709551616) :
    readU64le (n % 256) (n / 256 % 256) (n / 65536 % 256) (n / 16777216 % 256)
      (n / 4294967296 % 256) (n / 1099511627776 % 256)
      (n / 281474976710656 % 256) (n / 72057594037927936 % 256) = n := by
  unfold readU64le
  omega

theorem getD_of_drop (l : List α) (n i : Nat) (d : α) :
    l.getD (n + i) d = (l.drop n).getD i d := by
  rw [List.getD_eq_getElem?_getD, List.getD_eq_getElem?_getD,
    List.getElem?_drop]

@[simp] theorem u32le_length (n : Nat) : (u32le n).length = 4 := rfl

@[simp] theorem u64le_length (n : Nat) : (u64le n).length = 8 := rfl

/-- `encode`'s output is the 12-byte header followed by the length-prefixed
frame blobs. -/
theorem pixelEncode_eq (png : PngCodec) (e : PixelEncoder) (data : Bytes) :
    pixelEncode png e data =
      (u32le ((encodeToFrames e data).length % 4294967296) ++
        u64le (data.length % 18446744073709551616)) ++
      (encodeToFrames e data).flatMap (fun f =>
        u32le ((png.enc f).length % 4294967296) ++ png.enc f) := by
  unfold pixelEncode
  have hfun : (fun (acc : List Nat) f =>
      let pngData := png.enc f
      acc ++ u32le (pngData.length % 4294967296) ++ pngData) =
      (fun (acc : List Nat) f =>
        acc ++ (u32le ((png.enc f).length % 4294967296) ++ png.enc f)) := by
    funext acc f
    simp only [List.append_assoc]
  rw [hfun, foldl_append_f]

/-- Parsing the frame blobs emitted by `encode` recovers the frames. -/
theorem parseFrames_spec (png : PngCodec) (frames : List Image)
    (full : List Nat) (cursor : Nat)
    (hdrop : full.drop cursor = frames.flatMap (fun f =>
      u32le ((png.enc f).length % 4294967296) ++ png.enc f))
    (hlen : ∀ f ∈ frames, (png.enc f).length < 4294967296) :
    parseFrames png full cursor frames.length = .ok frames := by
  induction frames generalizing cursor with
  | nil => rfl
  | cons f rest ih =>
    have hL : (png.enc f).length < 4294967296 := hlen f (by simp)
    have hmod : (png.enc f).length % 4294967296 = (png.enc f).length :=
      Nat.mod_eq_of_lt hL
    have hdl : (full.drop cursor).length = full.length - cursor :=
      List.length_drop cursor full
    set stream := rest.flatMap (fun g =>
      u32le ((png.enc g).length % 4294967296) ++ png.enc g) with hstream
    have hdrop2 : full.drop cursor =
        u32le ((png.enc f).length % 4294967296) ++ (png.enc f ++ stream) := by
      rw [hdrop, List.flatMap_cons, List.append_assoc]
    have hslen : (full.drop cursor).length =
        4 + ((png.enc f).length + stream.length) := by
      rw [hdrop2]
      simp
    have hcur : cursor ≤ full.length := by
      by_contra habs
      push_neg at habs
      have hnil : full.drop cursor = [] := List.drop_eq_nil_of_le (by omega)
      rw [hnil] at hslen
      simp only [List.length_nil] at hslen
      omega
    have hget : ∀ i, i < 4 → full.getD (cursor + i) 0 = (u32le
        ((png.enc f).length % 4294967296)).getD i 0 := by
      intro i hi
      rw [getD_of_drop, hdrop2]
      have : i < (u32le ((png.enc f).length % 4294967296)).length := by
        simpa using hi
      rw [getD_eq_getElem _ _ (by simp; omega),
        List.getElem_append_left (by simpa using hi),
        getD_eq_getElem _ _ this]
    have hsize : readU32le (full.getD cursor 0) (full.getD (cursor + 1) 0)
        (full.getD (cursor + 2) 0) (full.getD (cursor + 3) 0) =
        (png.enc f).length := by
      rw [show (cursor : Nat) = cursor + 0 from by omega]
      rw [hget 0 (by omega), hget 1 (by omega), hget 2 (by omega),
        hget 3 (by omega), hmod]
      show readU32le ((png.enc f).length % 256)
        ((png.enc f).length / 256 % 256) ((png.enc f).length / 65536 % 256)
        ((png.enc f).length / 16777216 % 256) = (png.enc f).length
      exact readU32le_u32le _ hL
    show parseFrames png full cursor (rest.length + 1) = _
    rw [parseFrames]
    rw [if_neg (by omega)]
    simp only [show cursor + 0 = cursor from by omega] at hsize
    rw [hsize]
    rw [if_neg (by omega)]
    have hblob : (full.drop (cursor + 4)).take (png.enc f).length =
        png.enc f := by
      have hd4 : full.drop (cursor + 4) = png.enc f ++ stream := by
        have : full.drop (cursor + 4) = (full.drop cursor).drop 4 := by
          rw [List.drop_drop, Nat.add_comm]
        rw [this, hdrop2, List.drop_left' (by simp)]
      rw [hd4, List.take_left]
    rw [hblob, png.dec_enc f]
    have hrest : parseFrames png full (cursor + 4 + (png.enc f).length)
        rest.length = .ok rest := by
      apply ih
      · have : full.drop (cursor + 4 + (png.enc f).length) =
            (full.drop cursor).drop (4 + (png.enc f).length) := by
          rw [List.drop_drop]
          congr 1
          omega
        rw [this, hdrop2, ← List.append_assoc,
          List.drop_left' (by simp)]
      · intro g hg
        exact hlen g (by simp [hg])
    rw [hrest]

/-- Core of claim C2: `decode (encode B) = B` for byte inputs, whenever the
derived `bits_per_frame` is positive and the `u32`/`u64` container fields do
not overflow. -/
theorem pixelDecode_pixelEncode (png : PngCodec) (e : PixelEncoder)
    (data : Bytes) (hbs : 1 ≤ e.block_size) (hbpf : 1 ≤ bitsPerFrame e)
    (hthr : e.threshold = 128) (hbytes : ∀ b ∈ data, b < 256)
    (hF : (data.length * 8 + bitsPerFrame e - 1) / bitsPerFrame e <
      4294967296)
    (hencs : ∀ img, (png.enc img).length < 4294967296)
    (hlen64 : data.length < 18446744073709551616) :
    pixelDecode png e (pixelEncode png e data) = .ok data := by
  have hFlen : (encodeToFrames e data).length =
      (data.length * 8 + bitsPerFrame e - 1) / bitsPerFrame e := by
    rw [encodeToFrames_spec e data hbs]
    simp
  have hFmod : (encodeToFrames e data).length % 4294967296 =
      (encodeToFrames e data).length := Nat.mod_eq_of_lt (by omega)
  have hlmod : data.length % 18446744073709551616 = data.length :=
    Nat.mod_eq_of_lt hlen64
  have henc := pixelEncode_eq png e data
  set full := pixelEncode png e data with hfull
  set stream := (encodeToFrames e data).flatMap (fun f =>
    u32le ((png.enc f).length % 4294967296) ++ png.enc f) with hstreamdef
  have hlen12 : 12 ≤ full.length := by
    rw [henc]
    simp only [List.length_append, u32le_length, u64le_length]
    omega
  have hhead : ∀ i, i < 12 → full.getD i 0 =
      (u32le ((encodeToFrames e data).length % 4294967296) ++
        u64le (data.length % 18446744073709551616)).getD i 0 := by
    intro i hi
    rw [henc, getD_eq_getElem _ _ (by simp; omega),
      List.getElem_append_left (by simp; omega),
      getD_eq_getElem _ _ (by simp; omega)]
  unfold pixelDecode
  rw [if_neg (by omega)]
  have hcount : readU32le (full.getD 0 0) (full.getD 1 0) (full.getD 2 0)
      (full.getD 3 0) = (encodeToFrames e data).length := by
    rw [hhead 0 (by omega), hhead 1 (by omega), hhead 2 (by omega),
      hhead 3 (by omega), hFmod]
    show readU32le ((encodeToFrames e data).length % 256)
      ((encodeToFrames e data).length / 256 % 256)
      ((encodeToFrames e data).length / 65536 % 256)
      ((encodeToFrames e data).length / 16777216 % 256) = _
    exact readU32le_u32le _ (by omega)
  have hsize : readU64le (full.getD 4 0) (full.getD 5 0) (full.getD 6 0)
      (full.getD 7 0) (full.getD 8 0) (full.getD 9 0) (full.getD 10 0)
      (full.getD 11 0) = data.length := by
    rw [hhead 4 (by omega), hhead 5 (by omega), hhead 6 (by omega),
      hhead 7 (by omega), hhead 8 (by omega), hhead 9 (by omega),
      hhead 10 (by omega), hhead 11 (by omega), hlmod]
    show readU64le (data.length % 256) (data.length / 256 % 256)
      (data.length / 65536 % 256) (data.length / 16777216 % 256)
      (data.length / 4294967296 % 256) (data.length / 1099511627776 % 256)
      (data.length / 281474976710656 % 256)
      (data.length / 72057594037927936 % 256) = _
    exact readU64le_u64le _ hlen64
  rw [hcount, hsize]
  have hparse : parseFrames png full 12 (encodeToFrames e data).length =
      .ok (encodeToFrames e data) := by
    apply parseFrames_spec
    · rw [henc, List.drop_left' (by simp)]
    · intro f _
      exact hencs f
  rw [hparse]
  show Except.ok (decodeFromFrames e (encodeToFrames e data) data.length) =
    Except.ok data
  rw [decodeFromFrames_encode e data hbs hbpf hthr hbytes]

/-! ### A concrete lossless PNG codec instance

The real PNG encoder is a lossless, invertible serialisation of an image;
this executable stand-in (a Gödel-style numbering of the image) satisfies the
same contract and lets the claim theorems be evaluated on concrete inputs. -/

def imageToTuple (img : Image) : Nat × Nat × List (List Pixel) :=
  (img.width, img.height, img.rows)

def tupleToImage (t : Nat × Nat × List (List Pixel)) : Image :=
  ⟨t.1, t.2.1, t.2.2⟩

def pngNat : PngCodec where
  enc img := [Encodable.encode (imageToTuple img)]
  dec l :=
    match l with
    | [n] =>
      match (Encodable.decode n : Option (Nat × Nat × List (List Pixel))) with
      | some t => .ok (tupleToImage t)
      | none => .error "invalid PNG data"
    | _ => .error "invalid PNG data"
  dec_enc := by
    intro img
    simp [Encodable.encodek, imageToTuple, tupleToImage]

theorem pngNat_enc_length (img : Image) : (pngNat.enc img).length = 1 := rfl

/-! ### Classification of `decode`'s container-level failures

`ContainerIssue` is the spec-side classification of the conditions under
which `decode` can fail: a short header, a length prefix or frame blob
overrunning the buffer, or an undecodable blob.  Notably absent: any check of
the decoded frame's dimensions, and any check that the reassembled stream
reaches `original_size`. -/

inductive ContainerIssue where
  | headerShort
  | prefixOverrun
  | blobOverrun
  | badBlob (msg : String)
  deriving DecidableEq, Repr

/-- Scan of the frame section, mirroring the parse loop's checks. -/
def scanFrames (png : PngCodec) (data : List Nat) (cursor : Nat) :
    Nat → Option ContainerIssue
  | 0 => none
  | count + 1 =>
    if data.length < cursor + 4 then some .prefixOverrun
    else
      let frameSize := readU32le (data.getD cursor 0) (data.getD (cursor + 1) 0)
        (data.getD (cursor + 2) 0) (data.getD (cursor + 3) 0)
      if data.length < cursor + 4 + frameSize then some .blobOverrun
      else
        match png.dec ((data.drop (cursor + 4)).take frameSize) with
        | .error e => some (.badBlob e)
        | .ok _ => scanFrames png data (cursor + 4 + frameSize) count

/-- The container-level condition under which `decode` fails. -/
def containerIssue (png : PngCodec) (data : List Nat) : Option ContainerIssue :=
  if data.length < 12 then some .headerShort
  else scanFrames png data 12 (readU32le (data.getD 0 0) (data.getD 1 0)
    (data.getD 2 0) (data.getD 3 0))

/-- The error value `decode` reports for each container issue. -/
def issueError : ContainerIssue → Error
  | .headerShort => .Decoding "Data too short"
  | .prefixOverrun => .Decoding "Unexpected end of data"
  | .blobOverrun => .Decoding "Frame data truncated"
  | .badBlob m => .Decoding ("PNG decoding failed: " ++ m)

theorem scanFrames_parseFrames (png : PngCodec) (data : List Nat) :
    ∀ (count cursor : Nat),
    (∀ i, scanFrames png data cursor count = some i →
      parseFrames png data cursor count = .error (issueError i)) ∧
    (scanFrames png data cursor count = none →
      ∃ frames, parseFrames png data cursor count = .ok frames) := by
  intro count
  induction count with
  | zero =>
    intro cursor
    constructor
    · intro i hi
      simp [scanFrames] at hi
    · intro _
      exact ⟨[], rfl⟩
  | succ count ih =>
    intro cursor
    by_cases h4 : data.length < cursor + 4
    · constructor
      · intro i hi
        rw [scanFrames, if_pos h4] at hi
        rw [parseFrames, if_pos h4]
        injection hi with hi
        rw [← hi]
        rfl
      · intro hnone
        rw [scanFrames, if_pos h4] at hnone
        simp at hnone
    · by_cases hblob : data.length < cursor + 4 + readU32le (data.getD cursor 0)
          (data.getD (cursor + 1) 0) (data.getD (cursor + 2) 0)
          (data.getD (cursor + 3) 0)
      · constructor
        · intro i hi
          rw [scanFrames, if_neg h4] at hi
          simp only [if_pos hblob] at hi
          rw [parseFrames, if_neg h4]
          simp only [if_pos hblob]
          injection hi with hi
          rw [← hi]
          rfl
        · intro hnone
          rw [scanFrames, if_neg h4] at hnone
          simp only [if_pos hblob] at hnone
          simp at hnone
      · cases hdec : png.dec ((data.drop (cursor + 4)).take
            (readU32le (data.getD cursor 0) (data.getD (cursor + 1) 0)
              (data.getD (cursor + 2) 0) (data.getD (cursor + 3) 0))) with
        | error msg =>
          constructor
          · intro i hi
            rw [scanFrames, if_neg h4] at hi
            simp only [if_neg hblob, hdec] at hi
            rw [parseFrames, if_neg h4]
            simp only [if_neg hblob, hdec]
            injection hi with hi
            rw [← hi]
            rfl
          · intro hnone
            rw [scanFrames, if_neg h4] at hnone
            simp only [if_neg hblob, hdec] at hnone
            simp at hnone
        | ok img =>
          obtain ⟨hsome, hnone⟩ := ih (cursor + 4 + readU32le
            (data.getD cursor 0) (data.getD (cursor + 1) 0)
            (data.getD (cursor + 2) 0) (data.getD (cursor + 3) 0))
          constructor
          · intro i hi
            rw [scanFrames, if_neg h4] at hi
            simp only [if_neg hblob, hdec] at hi
            rw [parseFrames, if_neg h4]
            simp only [if_neg hblob, hdec]
            rw [hsome i hi]
          · intro hrec
            rw [scanFrames, if_neg h4] at hrec
            simp only [if_neg hblob, hdec] at hrec
            obtain ⟨frames, hframes⟩ := hnone hrec
            refine ⟨img :: frames, ?_⟩
            rw [parseFrames, if_neg h4]
            simp only [if_neg hblob, hdec, hframes]

/-- `decode` fails exactly on the container issues of `containerIssue`, with
the corresponding message; otherwise it succeeds, whatever the frame
dimensions and however short the reassembled stream is. -/
theorem pixelDecode_classified (png : PngCodec) (e : PixelEncoder)
    (data : List Nat) :
    (∀ i, containerIssue png data = some i →
      pixelDecode png e data = .error (issueError i)) ∧
    (containerIssue png data = none → ∃ frames,
      parseFrames png data 12 (readU32le (data.getD 0 0) (data.getD 1 0)
        (data.getD 2 0) (data.getD 3 0)) = .ok frames ∧
      pixelDecode png e data = .ok (decodeFromFrames e frames
        (readU64le (data.getD 4 0) (data.getD 5 0) (data.getD 6 0)
          (data.getD 7 0) (data.getD 8 0) (data.getD 9 0) (data.getD 10 0)
          (data.getD 11 0)))) := by
  by_cases h12 : data.length < 12
  · constructor
    · intro i hi
      rw [containerIssue, if_pos h12] at hi
      injection hi with hi
      rw [← hi]
      unfold pixelDecode
      rw [if_pos h12]
      rfl
    · intro h
      rw [containerIssue, if_pos h12] at h
      simp at h
  · obtain ⟨hsome, hnone⟩ := scanFrames_parseFrames png data
      (readU32le (data.getD 0 0) (data.getD 1 0) (data.getD 2 0)
        (data.getD 3 0)) 12
    constructor
    · intro i hi
      rw [containerIssue, if_neg h12] at hi
      have hp := hsome i hi
      unfold pixelDecode
      rw [if_neg h12, hp]
    · intro h
      rw [containerIssue, if_neg h12] at h
      obtain ⟨frames, hf⟩ := hnone h
      refine ⟨frames, hf, ?_⟩
      unfold pixelDecode
      rw [if_neg h12, hf]

/-! ## Crypto (`isg-crypto/src/lib.rs`) and the orchestrator
(`isg-orchestrator/src/lib.rs`)

AES-256-GCM and Argon2id are external crates.  `AeadScheme` bundles the AEAD
with its documented contract (decryption inverts encryption under the same
key and nonce; the ciphertext is plaintext length plus the 16-byte GCM tag).
Key derivation is modelled as an explicit deterministic function parameter.
The random nonce of `CryptoEngine::encrypt` and the database/backend
outcomes are supplied by an environment record. -/

/-- The external AEAD (AES-256-GCM) with its documented contract. -/
structure AeadScheme where
  enc : List Nat → List Nat → List Nat → List Nat
  dec : List Nat → List Nat → List Nat → Except String (List Nat)
  dec_enc : ∀ k n p, dec k n (enc k n p) = .ok p
  enc_len : ∀ k n p, (enc k n p).length = p.length + 16

/-- A concrete AEAD instance satisfying the scheme's contract: the
ciphertext is the plaintext followed by a 16-byte tag, decryption strips
the tag. -/
def aead0 : AeadScheme where
  enc := fun _ _ p => p ++ List.replicate 16 0
  dec := fun _ _ c => .ok (c.take (c.length - 16))
  dec_enc := by
    intro k n p
    show Except.ok ((p ++ List.replicate 16 0).take
      ((p ++ List.replicate 16 0).length - 16)) = Except.ok p
    have h1 : (p ++ List.replicate 16 0).length - 16 = p.length := by simp
    rw [h1, List.take_left' rfl]
  enc_len := by
    intro k n p
    simp

/-- The hard-coded upload salt `b"isg_salt_12345678"`. -/
def saltBytes : List Nat := "isg_salt_12345678".data.map Char.toNat

/-- The bytes of `b"empty"` (the zero-block root marker of `upload`). -/
def emptyWord : List Nat := "empty".data.map Char.toNat

/-- The bytes of the 13-byte test file `"Hello, world!"`. -/
def helloBytes : List Nat := "Hello, world!".data.map Char.toNat

/-- `EncodingType` of the orchestrator. -/
inductive EncodingType where
  | none | pixel | color | qr
  deriving DecidableEq, Repr

/-- `EncodingType::from_str`. -/
def encodingTypeFromStr (s : String) : EncodingType :=
  if s = "pixel" then .pixel
  else if s = "color" then .color
  else if s = "qr" then .qr
  else .none

/-- `EncodingType::as_str`. -/
def EncodingType.asStr : EncodingType → String
  | .none => "none"
  | .pixel => "pixel"
  | .color => "color"
  | .qr => "qr"

/-- `UploadOptions`. -/
structure UploadOptions where
  encoding : EncodingType
  encrypt : Bool
  password : Option String
  use_erasure : Bool
  data_shards : Nat
  parity_shards : Nat

/-- `FileRecord` (id omitted: it is assigned by the database). -/
structure FileRec where
  path : String
  root_hash : List Nat
  size : Nat
  created_at : Nat
  modified_at : Nat
  accessed_at : Nat
  deriving DecidableEq, Repr

/-- `BlockRecord`. -/
structure BlockRec where
  hash : List Nat
  size : Nat
  encoding_strategy : String
  created_at : Nat
  deriving DecidableEq, Repr

/-- `ChunkRecord` (id omitted: assigned by the database). -/
structure ChunkRec where
  block_hash : List Nat
  platform : String
  location : String
  is_parity : Bool
  uploaded_at : Nat
  deriving DecidableEq, Repr

/-- The three tables of the SQLite index. -/
structure Db where
  files : List FileRec
  blocks : List BlockRec
  chunks : List ChunkRec
  deriving DecidableEq, Repr

/-- The local backend's storage: identifier ↦ stored bytes. -/
abbrev Store := List (String × List Nat)

/-- Environment of one upload transaction: the random nonce, the clock, and
the success/failure outcomes of the fallible steps (database writes and the
backend upload, which returns the fresh location identifier). -/
structure UploadEnv where
  nonce : List Nat
  ts : Nat
  insertBlockOk : Nat → Bool
  backendResult : Nat → Except Error String
  insertChunkOk : Nat → Bool
  insertFileOk : Bool

/-- Step 4 of `Orchestrator::upload`: per block — insert the block record
(`INSERT OR IGNORE`), upload to backend 0, insert the chunk record.  Any
failure aborts the transaction, keeping the database writes already made. -/
def uploadBlocks (sha : Bytes → HashV) (env : UploadEnv)
    (platformName encodingStr : String) (blocks : List (List Nat)) (i : Nat)
    (db : Db) (store : Store) : (Db × Store) × Option Error :=
  match blocks with
  | [] => ((db, store), none)
  | bdata :: rest =>
    if env.insertBlockOk i then
      let brec : BlockRec := ⟨sha bdata, bdata.length, encodingStr, env.ts⟩
      let blocks1 := if db.blocks.any (fun r => r.hash == sha bdata)
        then db.blocks else db.blocks ++ [brec]
      let db1 : Db := { db with blocks := blocks1 }
      match env.backendResult i with
      | .error e => ((db1, store), some e)
      | .ok ident =>
        let store1 := store ++ [(ident, bdata)]
        if env.insertChunkOk i then
          let crec : ChunkRec := ⟨sha bdata, platformName, ident, false,
            env.ts⟩
          let db2 : Db := { db1 with chunks := db1.chunks ++ [crec] }
          uploadBlocks sha env platformName encodingStr rest (i + 1) db2 store1
        else ((db1, store1), some (.Database "Failed to insert chunk"))
    else ((db, store), some (.Database "Failed to insert block"))

/-- `Orchestrator::upload`.  The Step-2 codec dispatch is abstracted by
`encodeWith` (instantiated with the pixel codec and the unimplemented
color/qr encoders).  Returns the mutated database and store together with
the transaction outcome. -/
def uploadModel (sha : Bytes → HashV) (aead : AeadScheme)
    (kdf : String → List Nat → List Nat)
    (encodeWith : EncodingType → List Nat → Except Error (List Nat))
    (env : UploadEnv) (platformName : String) (path : String)
    (data : List Nat) (options : UploadOptions) (db : Db) (store : Store) :
    (Db × Store) × Option Error :=
  -- Step 1: optional encryption, reframed as nonce ‖ ciphertext
  let step1 : Except Error (List Nat) :=
    if options.encrypt then
      match options.password with
      | Option.none => .error (.Other "Password required for encryption")
      | Option.some pw =>
        let key := kdf pw saltBytes
        .ok (env.nonce ++ aead.enc key env.nonce data)
    else .ok data
  match step1 with
  | .error e => ((db, store), some e)
  | .ok data1 =>
    -- Step 2: optional encoding
    let step2 : Except Error (List Nat) :=
      if options.encoding ≠ EncodingType.none then
        encodeWith options.encoding data1
      else .ok data1
    match step2 with
    | .error e => ((db, store), some e)
    | .ok data2 =>
      -- Step 3: split into 1 MiB blocks
      let blocks := chunksOf 1048576 data2
      let encodingStr := if options.encoding ≠ EncodingType.none then
        options.encoding.asStr else "none"
      -- Step 4: per-block records and uploads
      match uploadBlocks sha env platformName encodingStr blocks 0 db store
        with
      | (st4, some e) => (st4, some e)
      | ((db4, store4), Option.none) =>
        -- Step 5: file record with the root hash
        let root := match blocks with
          | [] => sha emptyWord
          | b :: _ => sha b
        let frec : FileRec := ⟨path, root, data.length, env.ts, env.ts,
          env.ts⟩
        if env.insertFileOk ∧ ¬ db4.files.any (fun f => f.path == path) then
          (({ db4 with files := db4.files ++ [frec] }, store4), Option.none)
        else ((db4, store4), some (.Database "Failed to insert file"))

/-- Fetch and concatenate the chunk bodies (the download loop of
`Orchestrator::download` through `StorageManager::download_from_location`
and the local backend). -/
def downloadChunks (platformName : String) (store : Store) :
    List ChunkRec → Except Error (List Nat)
  | [] => .ok []
  | c :: rest =>
    if c.platform = platformName then
      match store.find? (fun kv => kv.1 == c.location) with
      | Option.some kv =>
        match downloadChunks platformName store rest with
        | .error e => .error e
        | .ok tail => .ok (kv.2 ++ tail)
      | Option.none => .error (.Storage "Block not found")
    else .error (.Storage "No backend can handle this location")

/-- `Orchestrator::download`. -/
def downloadModel (aead : AeadScheme) (kdf : String → List Nat → List Nat)
    (png : PngCodec) (platformName : String) (path : String)
    (password : Option String) (db : Db) (store : Store) :
    Except Error (List Nat) :=
  match db.files.find? (fun f => f.path == path) with
  | Option.none => .error (.Other ("File not found: " ++ path))
  | Option.some file =>
    let chunks := db.chunks.filter (fun c => c.block_hash == file.root_hash)
    if chunks.isEmpty then .error (.Other "No chunks found for file")
    else
      match downloadChunks platformName store chunks with
      | .error e => .error e
      | .ok reconstructed =>
        match db.blocks.find? (fun b => b.hash == file.root_hash) with
        | Option.none => .error (.Other "Block metadata not found")
        | Option.some block =>
          let decoded : Except Error (List Nat) :=
            if block.encoding_strategy ≠ "none" then
              match encodingTypeFromStr block.encoding_strategy with
              | .pixel => pixelDecode png PixelEncoder.new reconstructed
              | .color => .error (.Decoding "Color decoding not yet implemented")
              | .qr => .error (.Decoding
                  "QR decoding not yet implemented - requires QR scanner library")
              | .none => .ok reconstructed
            else .ok reconstructed
          match decoded with
          | .error e => .error e
          | .ok dataOut =>
            match password with
            | Option.none => .ok dataOut
            | Option.some pw =>
              if dataOut.length < 12 then
                .error (.Other "Invalid encrypted data")
              else
                let key := kdf pw saltBytes
                match aead.dec key (dataOut.take 12) (dataOut.drop 12) with
                | .error e => .error (.Crypto ("Decryption failed: " ++ e))
                | .ok plain => .ok plain

/-! ## Storage dispatcher (`isg-storage/src/lib.rs`) -/

/-- A storage `Location`. -/
structure Location where
  platform : String
  identifier : String
  deriving DecidableEq, Repr

/-- A `Block` as the dispatcher sees it. -/
structure BlockM where
  hash : HashV
  data : List Nat
  deriving DecidableEq, Repr

/-- A boxed `dyn StorageBackend`: its name and its upload behaviour. -/
structure StorageBackend where
  name : String
  upload : BlockM → Except Error Location

/-- `StorageManager`. -/
structure StorageManager where
  backends : List StorageBackend

/-- `StorageManager::upload_to_backend`. -/
def uploadToBackend (mgr : StorageManager) (backendIdx : Nat)
    (block : BlockM) : Except Error Location :=
  match mgr.backends.get? backendIdx with
  | Option.some b => b.upload block
  | Option.none => .error (.Storage "Backend not found")

/-! ### Support lemmas for the upload transaction -/

/-- The per-block loop never touches the `files` table. -/
theorem uploadBlocks_files (sha : Bytes → HashV) (env : UploadEnv)
    (pf es : String) : ∀ (blocks : List (List Nat)) (i : Nat) (db : Db)
    (store : Store),
    (uploadBlocks sha env pf es blocks i db store).1.1.files = db.files := by
  intro blocks
  induction blocks with
  | nil =>
    intro i db store
    rfl
  | cons b rest ih =>
    intro i db store
    rw [uploadBlocks]
    by_cases hib : env.insertBlockOk i
    · rw [if_pos hib]
      cases hbe : env.backendResult i with
      | error e => rfl
      | ok ident =>
        simp only
        by_cases hic : env.insertChunkOk i
        · rw [if_pos hic]
          exact ih (i + 1) _ _
        · rw [if_neg hic]
    · rw [if_neg hib]

/-- The per-block loop adds one chunk record per processed block, and a
successful run means every per-block step succeeded. -/
theorem uploadBlocks_success (sha : Bytes → HashV) (env : UploadEnv)
    (pf es : String) : ∀ (blocks : List (List Nat)) (i : Nat) (db : Db)
    (store : Store),
    (uploadBlocks sha env pf es blocks i db store).2 = Option.none →
    (∀ j, j < blocks.length → env.insertBlockOk (i + j) = true ∧
      (env.backendResult (i + j)).isOk = true ∧
      env.insertChunkOk (i + j) = true) ∧
    (uploadBlocks sha env pf es blocks i db store).1.1.chunks.length =
      db.chunks.length + blocks.length := by
  intro blocks
  induction blocks with
  | nil =>
    intro i db store _
    exact ⟨fun j hj => absurd hj (by simp), by simp [uploadBlocks]⟩
  | cons b rest ih =>
    intro i db store hok
    rw [uploadBlocks] at hok ⊢
    by_cases hib : env.insertBlockOk i
    · rw [if_pos hib] at hok ⊢
      cases hbe : env.backendResult i with
      | error e =>
        rw [hbe] at hok
        simp at hok
      | ok ident =>
        rw [hbe] at hok
        dsimp only at hok ⊢
        by_cases hic : env.insertChunkOk i
        · rw [if_pos hic] at hok ⊢
          obtain ⟨hsteps, hcount⟩ := ih (i + 1) _ _ hok
          constructor
          · intro j hj
            cases j with
            | zero =>
              refine ⟨by simpa using hib,
                by show (env.backendResult i).isOk = true; rw [hbe]; rfl,
                by simpa using hic⟩
            | succ j =>
              have := hsteps j (by simpa using hj)
              rw [show i + (j + 1) = i + 1 + j from by omega]
              exact this
          · rw [hcount]
            simp only [List.length_append, List.length_cons,
              List.length_nil]
            omega
        · rw [if_neg hic] at hok
          simp at hok
    · rw [if_neg hib] at hok
      simp at hok

/-- The encrypted single-block pipeline: uploading `helloBytes` with
password `"pw"` and no encoding succeeds, downloading with `"pw"` returns
the plaintext, and downloading without a password returns the stored
blob `nonce ‖ ciphertext`, whose length is 12 + 13 + 16 = 41 (the AEAD
appends a 16-byte tag). -/
theorem encryptedPipeline (sha : Bytes → HashV) (aead : AeadScheme)
    (kdf : String → List Nat → List Nat) (png : PngCodec)
    (encodeWith : EncodingType → List Nat → Except Error (List Nat))
    (env : UploadEnv) (path loc : String)
    (hn : env.nonce.length = 12)
    (hb0 : env.insertBlockOk 0 = true)
    (hbr : env.backendResult 0 = .ok loc)
    (hc0 : env.insertChunkOk 0 = true)
    (hfo : env.insertFileOk = true) :
    ∃ db1 store1,
      uploadModel sha aead kdf encodeWith env "local" path helloBytes
        ⟨EncodingType.none, true, Option.some "pw", false, 4, 2⟩
        ⟨[], [], []⟩ [] = ((db1, store1), Option.none) ∧
      downloadModel aead kdf png "local" path (Option.some "pw") db1
        store1 = .ok helloBytes ∧
      downloadModel aead kdf png "local" path Option.none db1 store1 =
        .ok (env.nonce ++ aead.enc (kdf "pw" saltBytes) env.nonce
          helloBytes) ∧
      (env.nonce ++ aead.enc (kdf "pw" saltBytes) env.nonce
        helloBytes).length = 41 := by
  have h13 : helloBytes.length = 13 := by decide
  have hdl : (env.nonce ++ aead.enc (kdf "pw" saltBytes) env.nonce
      helloBytes).length = 41 := by
    rw [List.length_append, hn, aead.enc_len, h13]
  have hne : env.nonce ++ aead.enc (kdf "pw" saltBytes) env.nonce
      helloBytes ≠ [] := by
    intro h
    have h0 := congrArg List.length h
    rw [hdl] at h0
    simp at h0
  have hb : chunksOf 1048576 (env.nonce ++ aead.enc (kdf "pw" saltBytes)
      env.nonce helloBytes) = [env.nonce ++ aead.enc (kdf "pw" saltBytes)
      env.nonce helloBytes] :=
    chunksOf_of_length_le 1048576 (by omega) _ hne (by rw [hdl]; omega)
  refine ⟨⟨[⟨path, sha (env.nonce ++ aead.enc (kdf "pw" saltBytes)
        env.nonce helloBytes), helloBytes.length, env.ts, env.ts, env.ts⟩],
      [⟨sha (env.nonce ++ aead.enc (kdf "pw" saltBytes) env.nonce
        helloBytes), (env.nonce ++ aead.enc (kdf "pw" saltBytes) env.nonce
        helloBytes).length, "none", env.ts⟩],
      [⟨sha (env.nonce ++ aead.enc (kdf "pw" saltBytes) env.nonce
        helloBytes), "local", loc, false, env.ts⟩]⟩,
    [(loc, env.nonce ++ aead.enc (kdf "pw" saltBytes) env.nonce
      helloBytes)], ?_, ?_, ?_, hdl⟩
  · rw [uploadModel]
    simp [uploadBlocks, hb, hb0, hbr, hc0, hfo]
  · rw [downloadModel]
    simp [downloadChunks, hdl, List.take_left' hn, List.drop_left' hn,
      aead.dec_enc]
  · rw [downloadModel]
    simp [downloadChunks]

/-! ## Claim theorems -/

/-- C3: for every `N ≥ 1`, `K ≥ 1` and byte string `B`, after `encode(B)`
produces `N+K` shards, replacing any `K` of them by absent and calling
`reconstruct` with the original length yields exactly `B`; replacing `K+1`
shards by absent makes `reconstruct` fail with the erasure-insufficient
error. -/
theorem erasure_reconstruct_after_blanking (n k : Nat)
    (rs : ReedSolomonLib n k) (data : Bytes) (hn : 1 ≤ n) (_hk : 1 ≤ k)
    (shards : List Shard) (henc : ecEncode rs data = .ok shards)
    (mask : List (Option Shard)) (hlen : mask.length = n + k)
    (hmask : ∀ i, i < n + k →
      mask.getD i none = none ∨ mask.getD i none = some (shards.getD i [])) :
    (mask.countP Option.isNone = k →
      ecReconstruct rs mask data.length = .ok data)
    ∧ (mask.countP Option.isNone = k + 1 →
      ecReconstruct rs mask data.length =
        .error (.Erasure (insufficientMsg (n - 1) n))) :=
  ecEncode_then_reconstruct n k rs data hn shards henc mask hlen hmask

theorem erasure_reconstruct_after_blanking_witness :
    ecReconstruct repRS [Option.none, Option.some [1, 2, 3]] 3 =
      .ok [1, 2, 3] ∧
    ecReconstruct repRS [Option.none, Option.none] 3 =
      .error (.Erasure (insufficientMsg 0 1)) := by
  constructor
  · exact (erasure_reconstruct_after_blanking 1 1 repRS [1, 2, 3] (by decide)
      (by decide) [[1, 2, 3], [1, 2, 3]] (by rfl)
      [Option.none, Option.some [1, 2, 3]] (by decide) (by decide)).1
      (by decide)
  · exact (erasure_reconstruct_after_blanking 1 1 repRS [1, 2, 3] (by decide)
      (by decide) [[1, 2, 3], [1, 2, 3]] (by rfl)
      [Option.none, Option.none] (by decide) (by decide)).2 (by decide)

/-- C2: for every byte string and every pixel-encoder configuration with a
positive block size and at least one bit per frame (and a faithful PNG
codec), `decode(encode(B))` returns exactly `B`: the encoder fixes the
frame count and original length in the header, pads the last frame with
zero bits, and the decoder truncates back to `original_size` bytes. -/
theorem pixel_encode_decode_roundtrip (png : PngCodec) (e : PixelEncoder)
    (data : Bytes) (hbs : 1 ≤ e.block_size) (hbpf : 1 ≤ bitsPerFrame e)
    (hthr : e.threshold = 128) (hbytes : ∀ b ∈ data, b < 256)
    (hF : (data.length * 8 + bitsPerFrame e - 1) / bitsPerFrame e <
      4294967296)
    (hencs : ∀ img, (png.enc img).length < 4294967296)
    (hlen64 : data.length < 18446744073709551616) :
    pixelDecode png e (pixelEncode png e data) = .ok data :=
  pixelDecode_pixelEncode png e data hbs hbpf hthr hbytes hF hencs hlen64

theorem pixel_encode_decode_roundtrip_witness :
    pixelDecode pngNat ⟨1, (1, 1), 30, 128⟩
      (pixelEncode pngNat ⟨1, (1, 1), 30, 128⟩ [1]) = .ok [1] :=
  pixel_encode_decode_roundtrip pngNat ⟨1, (1, 1), 30, 128⟩ [1]
    (by decide) (by decide) rfl (by decide) (by decide)
    (fun img => by rw [pngNat_enc_length]; decide) (by decide)

/-- C4: `compute_merkle_root` equals the spec's reference Merkle definition:
`hash(ε)` for the empty sequence, the element itself for a singleton,
`hash(h₁‖h₂)` for a pair, and level-by-level pairwise hashing (odd element
hashed with itself) in general. -/
theorem merkle_matches_spec_reference : ∀ (sha : Bytes → HashV),
    computeMerkleRoot sha [] = sha [] ∧
    (∀ h : HashV, computeMerkleRoot sha [h] = h) ∧
    (∀ h1 h2 : HashV, computeMerkleRoot sha [h1, h2] = sha (h1 ++ h2)) ∧
    (∀ hashes : List HashV,
      computeMerkleRoot sha hashes = specMerkle sha hashes) := by
  intro sha
  refine ⟨by simp [computeMerkleRoot], by intro h; simp [computeMerkleRoot],
    ?_, fun hashes => computeMerkleRoot_eq_specMerkle sha hashes⟩
  intro h1 h2
  rw [computeMerkleRoot_eq_specMerkle]
  show (specMerkleLoop sha [h1, h2]).headD [] = sha (h1 ++ h2)
  rw [specMerkleLoop_unfold]
  rw [if_neg (by simp)]
  rw [show specPairUp sha [h1, h2] = [sha (h1 ++ h2)] from rfl,
    specMerkleLoop_unfold, if_pos (by simp)]
  rfl

/-- The original C5 failure-mode inventory is falsified at the third
condition: a container announcing `original_size = 5` over zero frames
reassembles zero bytes, yet `decode` returns the short byte string
instead of a codec-truncated error. -/
theorem pixel_decode_failure_modes_counterexample :
    readU64le 5 0 0 0 0 0 0 0 = 5 ∧
    pixelDecode pngNat PixelEncoder.new
      [0, 0, 0, 0, 5, 0, 0, 0, 0, 0, 0, 0] = .ok [] := by
  have h1 : decodeFromFrames PixelEncoder.new [] 5 = [] := by
    rw [decodeFromFrames]
    rw [List.foldl_nil, chunksOf_nil]
    rfl
  refine ⟨rfl, ?_⟩
  show Except.ok (decodeFromFrames PixelEncoder.new [] 5) = Except.ok []
  rw [h1]

/-- C5 (amended): `decode` fails with `"Data too short"` when the input
has no complete 12-byte header; in the frame loop it fails with
`"Unexpected end of data"` when a 4-byte length prefix overruns the
buffer, `"Frame data truncated"` when a frame blob overruns the buffer,
and `"PNG decoding failed: …"` when a blob does not decode — and on NO
other container-level condition does it fail: whenever the scan finds no
issue, `decode` succeeds, even if the reassembled stream is shorter than
`original_size` (it then silently returns the short byte string; there is
no image-dimension check and no truncation error). -/
theorem pixel_decode_failure_modes (png : PngCodec) (e : PixelEncoder)
    (data : List Nat) :
    (∀ i, containerIssue png data = some i →
      pixelDecode png e data = .error (issueError i)) ∧
    (containerIssue png data = none → ∃ frames,
      parseFrames png data 12 (readU32le (data.getD 0 0) (data.getD 1 0)
        (data.getD 2 0) (data.getD 3 0)) = .ok frames ∧
      pixelDecode png e data = .ok (decodeFromFrames e frames
        (readU64le (data.getD 4 0) (data.getD 5 0) (data.getD 6 0)
          (data.getD 7 0) (data.getD 8 0) (data.getD 9 0) (data.getD 10 0)
          (data.getD 11 0)))) :=
  pixelDecode_classified png e data

theorem pixel_decode_failure_modes_witness :
    pixelDecode pngNat PixelEncoder.new [] =
      .error (.Decoding "Data too short") :=
  (pixel_decode_failure_modes pngNat PixelEncoder.new []).1
    ContainerIssue.headerShort (by rfl)

/-- C7: in every upload transaction the `FileRecord` is written only after
the block record, backend upload and chunk record have succeeded for every
block: if any per-block step fails the transaction stops with an error and
the `files` table is unchanged, and on success the `files` table gains
exactly one record for the path while every per-block step has succeeded
(one chunk record per block). -/
theorem upload_file_record_last (sha : Bytes → HashV) (aead : AeadScheme)
    (kdf : String → List Nat → List Nat)
    (encodeWith : EncodingType → List Nat → Except Error (List Nat))
    (env : UploadEnv) (pf path : String) (data : List Nat)
    (options : UploadOptions) (db : Db) (store : Store) :
    (∀ e, (uploadModel sha aead kdf encodeWith env pf path data options db
        store).2 = Option.some e →
      (uploadModel sha aead kdf encodeWith env pf path data options db
        store).1.1.files = db.files) ∧
    ((uploadModel sha aead kdf encodeWith env pf path data options db
        store).2 = Option.none →
      (∃ frec : FileRec,
        (uploadModel sha aead kdf encodeWith env pf path data options db
          store).1.1.files = db.files ++ [frec] ∧ frec.path = path) ∧
      ∃ nb, (uploadModel sha aead kdf encodeWith env pf path data options db
          store).1.1.chunks.length = db.chunks.length + nb ∧
        ∀ j, j < nb → env.insertBlockOk j = true ∧
          (env.backendResult j).isOk = true ∧
          env.insertChunkOk j = true) := by
  rw [uploadModel]
  dsimp only
  split
  · exact ⟨fun e _ => rfl, fun h => Option.noConfusion h⟩
  · next data1 heq1 =>
    split
    · exact ⟨fun e _ => rfl, fun h => Option.noConfusion h⟩
    · next data2 heq2 =>
      split
      · next st4 e hub =>
        have hf := uploadBlocks_files sha env pf
          (if options.encoding ≠ EncodingType.none then
            options.encoding.asStr else "none")
          (chunksOf 1048576 data2) 0 db store
        rw [hub] at hf
        exact ⟨fun e' _ => hf, fun h => Option.noConfusion h⟩
      · next db4 store4 hub =>
        have hf := uploadBlocks_files sha env pf
          (if options.encoding ≠ EncodingType.none then
            options.encoding.asStr else "none")
          (chunksOf 1048576 data2) 0 db store
        have hs := uploadBlocks_success sha env pf
          (if options.encoding ≠ EncodingType.none then
            options.encoding.asStr else "none")
          (chunksOf 1048576 data2) 0 db store
        rw [hub] at hf
        rw [hub] at hs
        obtain ⟨hsteps, hcount⟩ := hs rfl
        split
        · constructor
          · exact fun e h => Option.noConfusion h
          · intro _
            have hdf : db4.files = db.files := hf
            refine ⟨?_, (chunksOf 1048576 data2).length, hcount, ?_⟩
            · show ∃ frec, db4.files ++ _ = db.files ++ [frec] ∧
                frec.path = path
              rw [hdf]
              exact ⟨_, rfl, rfl⟩
            · intro j hj
              have h := hsteps j hj
              rwa [Nat.zero_add] at h
        · exact ⟨fun e _ => hf, fun h => Option.noConfusion h⟩

theorem upload_file_record_last_witness :
    (uploadModel (fun l => l) aead0 (fun _ _ => [])
      (fun _ _ => .error (.Other "no codec"))
      ⟨[], 0, fun _ => false, fun _ => .error (.Storage "s"), fun _ => false,
        true⟩ "local" "f.txt" [1]
      ⟨EncodingType.none, false, Option.none, false, 4, 2⟩
      ⟨[], [], []⟩ []).1.1.files = ([] : List FileRec) := by
  have hb : chunksOf 1048576 [(1 : Nat)] = [[1]] :=
    chunksOf_of_length_le 1048576 (by decide) [1] (by decide) (by decide)
  have h2 : (uploadModel (fun l => l) aead0 (fun _ _ => [])
      (fun _ _ => .error (.Other "no codec"))
      ⟨[], 0, fun _ => false, fun _ => .error (.Storage "s"), fun _ => false,
        true⟩ "local" "f.txt" [1]
      ⟨EncodingType.none, false, Option.none, false, 4, 2⟩
      ⟨[], [], []⟩ []).2 =
      Option.some (Error.Database "Failed to insert block") := by
    rw [uploadModel]
    simp [hb, uploadBlocks]
  exact (upload_file_record_last (fun l => l) aead0 (fun _ _ => [])
    (fun _ _ => .error (.Other "no codec"))
    ⟨[], 0, fun _ => false, fun _ => .error (.Storage "s"), fun _ => false,
      true⟩ "local" "f.txt" [1]
    ⟨EncodingType.none, false, Option.none, false, 4, 2⟩
    ⟨[], [], []⟩ []).1 (Error.Database "Failed to insert block") h2

/-- C8: `from_hex` succeeds exactly on 64-character all-hex strings, and
`from_hex (to_hex h) = h` for every 32-byte hash value. -/
theorem hash_hex_parsing_exact :
    (∀ s : String, (∃ h, hashFromHex s = .ok h) ↔
      (s.data.length = 64 ∧ ∀ c ∈ s.data, (hexVal c).isSome)) ∧
    (∀ h : HashV, h.length = 32 → (∀ b ∈ h, b < 256) →
      hashFromHex (hashToHex h) = .ok h) := by
  constructor
  · intro s
    cases hdec : hexDecode s.data with
    | none =>
      have hiff := hexDecode_isSome_iff s.data
      rw [hdec] at hiff
      simp only [Option.isSome_none, Bool.false_eq_true, false_iff] at hiff
      constructor
      · intro ⟨h, hh⟩
        rw [hashFromHex, hdec] at hh
        simp at hh
      · intro ⟨h64, hhex⟩
        exact absurd ⟨by omega, hhex⟩ hiff
    | some bytes =>
      have hlen2 := hexDecode_length s.data bytes hdec
      have hiff := hexDecode_isSome_iff s.data
      rw [hdec] at hiff
      simp only [Option.isSome_some, true_iff] at hiff
      constructor
      · intro ⟨h, hh⟩
        rw [hashFromHex, hdec] at hh
        dsimp only at hh
        by_cases h32 : bytes.length ≠ 32
        · rw [if_pos h32] at hh
          simp at hh
        · push_neg at h32
          exact ⟨by omega, hiff.2⟩
      · intro ⟨h64, _⟩
        have h32 : bytes.length = 32 := by omega
        refine ⟨bytes, ?_⟩
        rw [hashFromHex, hdec]
        dsimp only
        rw [if_neg (by omega)]
  · intro h h32 hb
    have hdec : hexDecode (hexEncodeChars h) = some h := hexDecode_hexEncode h hb
    rw [hashFromHex]
    rw [show (hashToHex h).data = hexEncodeChars h from rfl, hdec]
    dsimp only
    rw [if_neg (by omega)]

theorem hash_hex_parsing_exact_witness :
    hashFromHex (hashToHex (List.replicate 32 7)) =
      .ok (List.replicate 32 7) :=
  hash_hex_parsing_exact.2 (List.replicate 32 7) (by simp) (by
    intro b hb
    rw [List.eq_of_mem_replicate hb]
    omega)

/-- C9: the Merkle level-reduction loop is terminating because one pass maps
a level of length `n ≥ 2` to a level of length `⌈n/2⌉ < n`. -/
theorem merkle_level_step_decreases (sha : Bytes → HashV)
    (level : List HashV) (h2 : 2 ≤ level.length) :
    (merkleLevelStep sha level).length = (level.length + 1) / 2 ∧
    (merkleLevelStep sha level).length < level.length := by
  rw [merkleLevelStep_length]
  exact ⟨rfl, by omega⟩

theorem merkle_level_step_decreases_witness :
    (merkleLevelStep (fun l => l) [[0], [1], [2]]).length =
      (([[0], [1], [2]] : List HashV).length + 1) / 2 ∧
    (merkleLevelStep (fun l => l) [[0], [1], [2]]).length <
      ([[0], [1], [2]] : List HashV).length :=
  merkle_level_step_decreases (fun l => l) [[0], [1], [2]] (by decide)

/-- C10: `upload_to_backend` with an index at or past the number of
registered backends returns the `"Backend not found"` storage error instead
of panicking. -/
theorem dispatcher_upload_out_of_range (mgr : StorageManager)
    (backendIdx : Nat) (block : BlockM)
    (hidx : mgr.backends.length ≤ backendIdx) :
    uploadToBackend mgr backendIdx block =
      .error (.Storage "Backend not found") := by
  unfold uploadToBackend
  rw [List.get?_eq_none.mpr hidx]

theorem dispatcher_upload_out_of_range_witness :
    uploadToBackend ⟨[]⟩ 0 ⟨[], []⟩ =
      .error (.Storage "Backend not found") :=
  dispatcher_upload_out_of_range ⟨[]⟩ 0 ⟨[], []⟩ le_rfl

/-- C1: the claim that the `FileRecord` root equals the Merkle root of the
block-fingerprint sequence is falsified by the code: for the zero-block
upload the code stores `hash(b"empty")`, not the claimed
`merkle([]) = hash(ε)`; the two differ for every injective hash.  (For
`n ≥ 1` blocks the code stores `hash(b₁)`, the first block's fingerprint,
not the Merkle root either.) -/
theorem upload_root_not_merkle (sha : Bytes → HashV)
    (hinj : Function.Injective sha) (aead : AeadScheme)
    (kdf : String → List Nat → List Nat)
    (encodeWith : EncodingType → List Nat → Except Error (List Nat))
    (env : UploadEnv) (path : String) (hfo : env.insertFileOk = true) :
    uploadModel sha aead kdf encodeWith env "local" path []
        ⟨EncodingType.none, false, Option.none, false, 4, 2⟩
        ⟨[], [], []⟩ [] =
      ((⟨[⟨path, sha emptyWord, 0, env.ts, env.ts, env.ts⟩], [], []⟩, []),
        Option.none) ∧
    sha emptyWord ≠ computeMerkleRoot sha [] := by
  constructor
  · rw [uploadModel]
    simp [uploadBlocks, hfo]
  · intro h
    rw [show computeMerkleRoot sha [] = sha [] from by
      simp [computeMerkleRoot]] at h
    exact absurd (hinj h) (by decide)

theorem upload_root_not_merkle_witness :
    uploadModel (fun l => l) aead0 (fun _ _ => [])
      (fun _ _ => .error (.Other "nc"))
      ⟨[], 5, fun _ => true, fun _ => .ok "loc", fun _ => true, true⟩
      "local" "empty.txt" []
      ⟨EncodingType.none, false, Option.none, false, 4, 2⟩
      ⟨[], [], []⟩ [] =
      ((⟨[⟨"empty.txt", emptyWord, 0, 5, 5, 5⟩], [], []⟩, []),
        Option.none) ∧
    emptyWord ≠ computeMerkleRoot (fun l => l) [] :=
  upload_root_not_merkle (fun l => l) (fun _ _ h => h) aead0
    (fun _ _ => []) (fun _ _ => .error (.Other "nc"))
    ⟨[], 5, fun _ => true, fun _ => .ok "loc", fun _ => true, true⟩
    "empty.txt" rfl

/-- C6 (amended): uploading the 13-byte file `"Hello, world!"` with
encryption under password `"pw"` and no encoding, then downloading with
`"pw"`, returns exactly those 13 bytes; downloading without a password
returns the stored blob `nonce ‖ ciphertext` — but that blob is
12 + 13 + 16 = 41 bytes, not 25: the AEAD ciphertext carries a 16-byte
authentication tag on top of the plaintext length. -/
theorem encrypted_roundtrip (sha : Bytes → HashV) (aead : AeadScheme)
    (kdf : String → List Nat → List Nat) (png : PngCodec)
    (encodeWith : EncodingType → List Nat → Except Error (List Nat))
    (env : UploadEnv) (path loc : String)
    (hn : env.nonce.length = 12)
    (hb0 : env.insertBlockOk 0 = true)
    (hbr : env.backendResult 0 = .ok loc)
    (hc0 : env.insertChunkOk 0 = true)
    (hfo : env.insertFileOk = true) :
    ∃ db1 store1,
      uploadModel sha aead kdf encodeWith env "local" path helloBytes
        ⟨EncodingType.none, true, Option.some "pw", false, 4, 2⟩
        ⟨[], [], []⟩ [] = ((db1, store1), Option.none) ∧
      downloadModel aead kdf png "local" path (Option.some "pw") db1
        store1 = .ok helloBytes ∧
      downloadModel aead kdf png "local" path Option.none db1 store1 =
        .ok (env.nonce ++ aead.enc (kdf "pw" saltBytes) env.nonce
          helloBytes) ∧
      (env.nonce ++ aead.enc (kdf "pw" saltBytes) env.nonce
        helloBytes).length = 41 :=
  encryptedPipeline sha aead kdf png encodeWith env path loc hn hb0 hbr
    hc0 hfo

theorem encrypted_roundtrip_witness :
    ∃ db1 store1,
      uploadModel (fun l => l) aead0 (fun _ _ => [])
        (fun _ _ => .error (.Other "nc"))
        ⟨List.replicate 12 0, 0, fun _ => true, fun _ => .ok "loc0",
          fun _ => true, true⟩ "local" "hello.txt" helloBytes
        ⟨EncodingType.none, true, Option.some "pw", false, 4, 2⟩
        ⟨[], [], []⟩ [] = ((db1, store1), Option.none) ∧
      downloadModel aead0 (fun _ _ => []) pngNat "local" "hello.txt"
        (Option.some "pw") db1 store1 = .ok helloBytes ∧
      downloadModel aead0 (fun _ _ => []) pngNat "local" "hello.txt"
        Option.none db1 store1 =
        .ok (List.replicate 12 0 ++
          aead0.enc [] (List.replicate 12 0) helloBytes) ∧
      (List.replicate 12 0 ++
        aead0.enc [] (List.replicate 12 0) helloBytes).length = 41 :=
  encrypted_roundtrip (fun l => l) aead0 (fun _ _ => []) pngNat
    (fun _ _ => .error (.Other "nc"))
    ⟨List.replicate 12 0, 0, fun _ => true, fun _ => .ok "loc0",
      fun _ => true, true⟩ "hello.txt" "loc0" (by decide) rfl rfl rfl rfl

/-- The original C6 is falsified at the no-password clause: the blob
returned without a password is 41 bytes, not the claimed 25. -/
theorem encrypted_roundtrip_counterexample :
    ∃ db1 store1 blob,
      uploadModel (fun l => l) aead0 (fun _ _ => [])
        (fun _ _ => .error (.Other "nc"))
        ⟨List.replicate 12 0, 0, fun _ => true, fun _ => .ok "loc0",
          fun _ => true, true⟩ "local" "hello.txt" helloBytes
        ⟨EncodingType.none, true, Option.some "pw", false, 4, 2⟩
        ⟨[], [], []⟩ [] = ((db1, store1), Option.none) ∧
      downloadModel aead0 (fun _ _ => []) pngNat "local" "hello.txt"
        Option.none db1 store1 = .ok blob ∧
      blob.length = 41 ∧ blob.length ≠ 25 := by
  obtain ⟨db1, store1, hup, _, hdl, hlen⟩ := encryptedPipeline
    (fun l => l) aead0 (fun _ _ => []) pngNat
    (fun _ _ => .error (.Other "nc"))
    ⟨List.replicate 12 0, 0, fun _ => true, fun _ => .ok "loc0",
      fun _ => true, true⟩ "hello.txt" "loc0" (by decide) rfl rfl rfl rfl
  exact ⟨db1, store1, _, hup, hdl, hlen, by rw [hlen]; decide⟩

end ISG
